import Mathlib

/-
Verification of the red-black tree implementation in `red_black_tree.py`.

The Python code is shallowly embedded: the node graph (with parent pointers)
is modelled by a functional tree `RBNode` together with zipper paths
(`Frame`, `Path`), so that a pointer into the tree corresponds to the list of
frames from the focused node up to the root.  The iterative fixup loops walk
up the parent chain, which corresponds to structural recursion on the path.
Python exceptions are modelled by the `Except PyErr` monad, keyed by the
exception class the source raises.  Python truthiness of payload values is
modelled by `truthy` on the small universe `PyVal` of payload values.
-/

namespace RBT

/-- Python values used as payloads and keys: enough of Python's value
universe to distinguish truthy from falsy payloads. -/
inductive PyVal where
  | noneV
  | int (n : Int)
  | str (s : String)
deriving DecidableEq

/-- Python truthiness for `PyVal` (`if value:`). -/
def truthy : PyVal → Bool
  | .noneV => false
  | .int n => decide (n ≠ 0)
  | .str s => decide (s ≠ "")

/-- The exception classes raised by `red_black_tree.py`. -/
inductive PyErr where
  | typeError
  | lookupError
  | keyError
  | valueError
  | referenceError
  | arithmeticError
deriving DecidableEq

/-- Node colors (`(RED, BLACK) = range(2)`). -/
inductive Color where
  | red
  | black
deriving DecidableEq

/-- Child directions (`(LEFT, RIGHT) = range(2)`). -/
inductive Dir where
  | left
  | right
deriving DecidableEq

/-- `1 - direction`, as used by `__rotate` and the fixups. -/
def Dir.flip : Dir → Dir
  | .left => .right
  | .right => .left

/-- The tree of `Node` objects.  `nil` is the nil terminator (key `None`,
children `[None, None]`, color BLACK); `node c k a l r` is a real node with
color `c`, key `k`, children `l` and `r`, and `a` records whether the
Python attribute `value` is present (`Node.__init__` only sets it for a
truthy argument). -/
inductive RBNode where
  | nil
  | node (color : Color) (key : Int) (attr : Option PyVal) (l r : RBNode)
deriving DecidableEq

namespace RBNode

/-- `Node.is_nil` (a terminator is recognized by having no children). -/
def isNil : RBNode → Bool
  | .nil => true
  | .node _ _ _ _ _ => false

/-- `node.color`; the nil terminator is BLACK. -/
def colorOf : RBNode → Color
  | .nil => .black
  | .node c _ _ _ _ => c

/-- `node.key` of a real node (the nil terminator has key `None`;
reading it through this function is never done by the embedded code). -/
def keyD : RBNode → Int
  | .nil => 0
  | .node _ k _ _ _ => k

/-- `node.color = c` (in-place recolorings). -/
def setColor : RBNode → Color → RBNode
  | .nil, _ => .nil
  | .node _ k a l r, c => .node c k a l r

/-- `node.child[d]` of a real node (junk `nil` on the terminator;
the algorithms only read children of real nodes through this). -/
def getChild : RBNode → Dir → RBNode
  | .nil, _ => .nil
  | .node _ _ _ l _, .left => l
  | .node _ _ _ _ r, .right => r

/-- `node.child[d] = x` on a real node. -/
def setChild : RBNode → Dir → RBNode → RBNode
  | .nil, _, _ => .nil
  | .node c k a _ r, .left, x => .node c k a x r
  | .node c k a l _, .right, x => .node c k a l x

/-- `node.child[d]` as the Python object reference: a real node holds two
`Node` objects (possibly nil terminators), the terminator holds `[None, None]`. -/
def childOpt : RBNode → Dir → Option RBNode
  | .nil, _ => none
  | .node _ _ _ l _, .left => some l
  | .node _ _ _ _ r, .right => some r

/-- `Node(key, value)` with `nil = False`: a RED node with two fresh nil
terminators; the `value` attribute is only set when `value` is truthy. -/
def newNode (key : Int) (value : PyVal) : RBNode :=
  .node .red key (if truthy value then some value else none) .nil .nil

/-- Number of real nodes. -/
def size : RBNode → Nat
  | .nil => 0
  | .node _ _ _ l r => size l + size r + 1

/-- Maximum number of real nodes on a path from this node down to a nil
terminator. -/
def height : RBNode → Nat
  | .nil => 0
  | .node _ _ _ l r => 1 + max (height l) (height r)

/-- In-order list of `(key, value-attribute)` pairs. -/
def inorder : RBNode → List (Int × Option PyVal)
  | .nil => []
  | .node _ k a l r => inorder l ++ (k, a) :: inorder r

/-- In-order list of keys. -/
def keyList (t : RBNode) : List Int := (inorder t).map Prod.fst

end RBNode

open RBNode

/-- One step of context in a zipper: the data of the parent node of the
focus, with `dir` the direction from the parent down to the focus and
`other` the parent's other child.  A Python parent pointer corresponds to
the list of these frames from the focus up to the root. -/
structure Frame where
  dir : Dir
  color : Color
  key : Int
  attr : Option PyVal
  other : RBNode
deriving DecidableEq

/-- A path from a focused position up to the root, innermost frame first. -/
abbrev Path := List Frame

/-- Rebuild the parent node from its frame and the subtree in the hole. -/
def plugFrame (f : Frame) (t : RBNode) : RBNode :=
  match f.dir with
  | .left => .node f.color f.key f.attr t f.other
  | .right => .node f.color f.key f.attr f.other t

/-- Rebuild the whole tree from a path and the subtree at the focus. -/
def plug : Path → RBNode → RBNode
  | [], t => t
  | f :: p, t => plug p (plugFrame f t)

/-- `Tree.__rotate(nFocus, _OBVERSE_DIRECTION)` restricted to the subtree
under the focus: the child on the reverse side is promoted into the focus's
position and the focus becomes its child on the obverse side.  The
relinking of the focus's parent (or the root reference) in the source is
the plugging of the result back into the unchanged hole of the zipper.
If the promoted child is a nil terminator the source would write `None`
into a child slot; that situation is unreachable in the fixups and is
mapped to the identity. -/
def rotateSub (nFocus : RBNode) (obv : Dir) : RBNode :=
  let rev := obv.flip
  match getChild nFocus rev with
  | .nil => nFocus
  | .node cc ck cv cl cr =>
    let nChild := RBNode.node cc ck cv cl cr
    let nFocus' := setChild nFocus rev (getChild nChild obv)
    setChild nChild obv nFocus'

/-- The `_post_action` values `TREE_INSERT`, `TREE_DELETE`, `TREE_UPDATE`. -/
inductive Intent where
  | ins
  | del
  | upd
deriving DecidableEq

/-- The descent loop of `Tree.find`, also recording the path (the parent
pointers) to the reached node.  `Node.compare(Node(key), nFocus)` returns
LEFT when `key < nFocus.key`, RIGHT when `key > nFocus.key`, and `None`
(breaking the loop) on equality; the loop also stops on a nil terminator. -/
def findZip (key : Int) : RBNode → Path → Path × RBNode
  | .nil, acc => (acc, .nil)
  | .node c k a l r, acc =>
    if key < k then
      findZip key l ({ dir := .left, color := c, key := k, attr := a, other := r } :: acc)
    else if k < key then
      findZip key r ({ dir := .right, color := c, key := k, attr := a, other := l } :: acc)
    else (acc, .node c k a l r)

/-- `Tree.find(key, _post_action)`.  Raises `TypeError` on a non-int key,
`LookupError` on an empty tree, `LookupError` when an insert-preparation
search lands on a real node (duplicate key) and when any other search lands
on a nil terminator (absent key).  Returns the reached node together with
its path. -/
def find (t : Option RBNode) (key : PyVal) (postAction : Option Intent) :
    Except PyErr (Path × RBNode) :=
  match key with
  | .int k =>
    match t with
    | none => .error .lookupError
    | some root =>
      let res := findZip k root []
      if res.2.isNil = false ∧ postAction = some .ins then .error .lookupError
      else if res.2.isNil = true ∧ postAction ≠ some .ins then .error .lookupError
      else .ok res
  | _ => .error .typeError

/-- `Tree.__insert_fixup(nFocus)`, on the zipper `(path, nFocus)`; returns
the whole tree.  The loop runs while the focus has a RED parent; on exit
the root is unconditionally colored BLACK.  CLRS case 1 recolors and moves
the focus to the grandparent (two frames up: structural recursion); cases
2 and 3 rotate and recolor, after which the focus's parent is the node
just colored BLACK, so the loop condition fails and the loop exits. -/
def insertFixup : Path → RBNode → RBNode
  | [], nFocus => setColor nFocus .black
  | [pf], nFocus =>
    -- A RED parent that is the root would make the source dereference
    -- `None.child` (unreachable: the root of a valid tree is BLACK);
    -- otherwise the loop exits at once and the root is colored BLACK.
    setColor (plug [pf] nFocus) .black
  | pf :: gf :: rest, nFocus =>
    if pf.color = .red then
      let gdir := gf.dir
      let odir := gdir.flip
      let nUncle := gf.other
      if colorOf nUncle = .red then
        -- CLRS case 1: recolor parent and uncle BLACK, grandparent RED,
        -- and continue from the grandparent.
        insertFixup rest
          (plugFrame { gf with color := .red, other := setColor nUncle .black }
            (plugFrame { pf with color := .black } nFocus))
      else
        -- CLRS case 2: the focus is the parent's child on the side
        -- opposite to the parent's own side: move the focus to the parent
        -- and rotate it toward the grandparent's direction.
        let pSub :=
          if pf.dir = odir then rotateSub (plugFrame pf nFocus) gdir
          else plugFrame pf nFocus
        -- CLRS case 3: parent BLACK, grandparent RED, rotate the
        -- grandparent away from the parent.  The focus's parent is now
        -- BLACK, so the loop exits and the root is colored BLACK.
        setColor
          (plug rest (rotateSub (plugFrame { gf with color := .red } (setColor pSub .black)) odir))
          .black
    else
      setColor (plug (pf :: gf :: rest) nFocus) .black

/-- CLRS case 1 of `__delete_fixup` (RED sibling): sibling BLACK, parent
RED, rotate the parent toward the focus's side and re-derive the sibling.
On the zipper this replaces the focus's parent frame by two frames.  When
the sibling is not RED nothing happens. -/
def delCase1 (pf : Frame) (rest : Path) : Frame × Path :=
  match pf.other with
  | .node .red sk sv sl sr =>
    ({ dir := pf.dir, color := .red, key := pf.key, attr := pf.attr,
       other := getChild (.node .red sk sv sl sr) pf.dir },
     { dir := pf.dir, color := .black, key := sk, attr := sv,
       other := getChild (.node .red sk sv sl sr) pf.dir.flip } :: rest)
  | _ => (pf, rest)

/-- CLRS cases 3 and 4 of `__delete_fixup`, producing the subtree that
replaces the parent: case 3 (far child of the sibling BLACK, hence its
near child RED): recolor the near child BLACK, the sibling RED, rotate the
sibling away from the focus and re-derive the sibling; then case 4: the
far child BLACK, the sibling takes the parent's color, the parent turns
BLACK and is rotated toward the focus's side. -/
def delCase34 (p1 : Frame) (nFocus : RBNode) : RBNode :=
  match p1.other with
  | .nil =>
    -- The source would dereference `None.color` here (a nil sibling);
    -- unreachable: a BLACK-deficient focus always has a real sibling.
    plugFrame p1 nFocus
  | .node sc1 sk1 sv1 sl1 sr1 =>
    let s1 := RBNode.node sc1 sk1 sv1 sl1 sr1
    let s2 :=
      if colorOf (getChild s1 p1.dir.flip) = .black then
        rotateSub
          (setColor (setChild s1 p1.dir (setColor (getChild s1 p1.dir) .black)) .red)
          p1.dir.flip
      else s1
    let s3 :=
      setColor (setChild s2 p1.dir.flip (setColor (getChild s2 p1.dir.flip) .black)) p1.color
    rotateSub (plugFrame { p1 with color := .black, other := s3 } nFocus) p1.dir

/-- The loop body of `Tree.__delete_fixup`, with an explicit iteration
budget.  Every iteration either exits the loop or is CLRS case 2, which
moves the focus one frame up; an iteration that first applies case 1 grows
the path by one frame, but its case 2 then hands a RED focus to the next
iteration, which exits at once.  Hence `2 * path.length + 2` iterations
always suffice and the zero-fuel branch is unreachable from `deleteFixup`. -/
def deleteFixupGo : Nat → Path → RBNode → RBNode
  | 0, path, nFocus => plug path nFocus
  | _ + 1, [], nFocus =>
    -- The focus is the root: the loop exits and the focus is colored BLACK.
    setColor nFocus .black
  | fuel + 1, pf :: rest, nFocus =>
    if colorOf nFocus = .red then
      -- The loop exits; the final focus is colored BLACK.
      plug (pf :: rest) (setColor nFocus .black)
    else
      let pr := delCase1 pf rest
      let p1 := pr.1
      let restA := pr.2
      match p1.other with
      | .nil =>
        -- unreachable (see `delCase34`)
        plug (p1 :: restA) nFocus
      | .node sc1 sk1 sv1 sl1 sr1 =>
        if colorOf sl1 = .black ∧ colorOf sr1 = .black then
          -- CLRS case 2: recolor the sibling RED and move the deficiency
          -- up to the parent.
          deleteFixupGo fuel restA
            (plugFrame { p1 with other := setColor (.node sc1 sk1 sv1 sl1 sr1) .red } nFocus)
        else
          -- CLRS cases 3 and 4 absorb the deficiency: the focus is set to
          -- the root, the loop exits, and the final focus (the whole tree
          -- root) is colored BLACK.
          setColor (plug restA (delCase34 p1 nFocus)) .black

/-- `Tree.__delete_fixup(nFocus)` on the zipper `(path, nFocus)`; returns
the whole tree. -/
def deleteFixup (path : Path) (nFocus : RBNode) : RBNode :=
  deleteFixupGo (2 * path.length + 2) path nFocus

/-- The successor-descent loop of `Tree.delete`
(`while not nReplacer.child[LEFT].is_nil(): nReplacer = nReplacer.child[LEFT]`),
recording the frames walked through. -/
def leftSpine : RBNode → Path → Path × RBNode
  | .nil, acc => (acc, .nil)
  | .node c k a l r, acc =>
    if l.isNil = true then (acc, .node c k a l r)
    else leftSpine l ({ dir := .left, color := c, key := k, attr := a, other := r } :: acc)

/-- `Tree.insert(key, value)`. -/
def insert (t : Option RBNode) (key : PyVal) (value : PyVal) :
    Except PyErr (Option RBNode) :=
  match key with
  | .int k =>
    let nNew := newNode k value
    match t with
    | none => .ok (some (setColor nNew .black))
    | some root =>
      match find (some root) (.int k) (some .ins) with
      | .error e => .error e
      | .ok res =>
        -- The nil terminator found by `find` is replaced by the new node
        -- (`nFocus.parent.child[_DIRECTION] = nNew`).
        .ok (some (insertFixup res.1 nNew))
  | _ => .error .typeError

/-- `Tree.delete(key)`. -/
def delete (t : Option RBNode) (key : PyVal) : Except PyErr (Option RBNode) :=
  match find t key (some .del) with
  | .error e => .error e
  | .ok res =>
    match res.2 with
    | .nil => .error .lookupError  -- unreachable: find in delete mode returns a real node
    | .node c k a l r =>
      if l.isNil = false ∧ r.isNil = false then
        -- Two real children: the in-order successor (the leftmost node of
        -- the right subtree) becomes the node to excise, and only its KEY
        -- is copied into the focused node (`nFocus.key = nReplacer.key`);
        -- this key copy is modelled by rebuilding the focused node's frame
        -- with the successor's key.  The replacer is never the root here,
        -- so the source's root branch is not taken.
        let ls := leftSpine r []
        match ls.2 with
        | .nil => .error .lookupError  -- unreachable: the right subtree is real
        | .node rc rk _ rl rr =>
          let nRepChild := if rl.isNil = false then rl else rr
          let rpath :=
            ls.1 ++ { dir := .right, color := c, key := rk, attr := a, other := l } :: res.1
          if rc = .black then .ok (some (deleteFixup rpath nRepChild))
          else .ok (some (plug rpath nRepChild))
      else
        -- At most one real child: the focused node itself is excised and
        -- its child (possibly a nil terminator) is spliced into its place;
        -- the key copy is a self-assignment.
        let nRepChild := if l.isNil = false then l else r
        match res.1 with
        | [] =>
          -- `nReplacer == self.__root`
          if nRepChild.isNil = true then .ok none
          else .ok (some (setColor nRepChild .black))
        | pf :: rest =>
          if c = .black then .ok (some (deleteFixup (pf :: rest) nRepChild))
          else .ok (some (plug (pf :: rest) nRepChild))

/-- `Tree.update(key, value)`: find the node and set its `value` attribute
(unconditionally, unlike `Node.__init__`). -/
def update (t : Option RBNode) (key : PyVal) (value : PyVal) :
    Except PyErr (Option RBNode) :=
  match find t key (some .upd) with
  | .error e => .error e
  | .ok res =>
    match res.2 with
    | .nil => .error .lookupError  -- unreachable: find in update mode returns a real node
    | .node c k _ l r => .ok (some (plug res.1 (.node c k (some value) l r)))

/-- The descent loop of `Tree.boundary`
(`while curr: prev = curr; curr = curr.child[direction]`), returning the
final `prev`.  Real nodes hold `Node` objects in both child slots (truthy,
including nil terminators), while a nil terminator holds `None`: the loop
therefore walks past the bottom real node onto its nil terminator and
returns that terminator. -/
def boundWalk : RBNode → Dir → RBNode
  | .nil, _ => .nil
  | .node _ _ _ l _, .left => boundWalk l .left
  | .node _ _ _ _ r, .right => boundWalk r .right

/-- `Tree.boundary(find_option)`: `None` on an empty tree, `KeyError` on a
selector other than `LOWEST_KEY = 0` or `HIGHEST_KEY = 1`, otherwise the
node reached by the descent loop. -/
def boundary (t : Option RBNode) (findOption : Nat) : Except PyErr (Option RBNode) :=
  match t with
  | none => .ok none
  | some root =>
    if findOption = 0 then .ok (some (boundWalk root .left))
    else if findOption = 1 then .ok (some (boundWalk root .right))
    else .error .keyError

/-- The `process_order` values `PRE_ORDER, IN_ORDER, POST_ORDER`. -/
inductive Order where
  | pre
  | ino
  | post
deriving DecidableEq

/-- The subtree of `t` at the end of a descent path from the root. -/
def subtreeAt : RBNode → List Dir → RBNode
  | t, [] => t
  | .nil, _ :: _ => .nil
  | .node _ _ _ l _, .left :: p => subtreeAt l p
  | .node _ _ _ _ r, .right :: p => subtreeAt r p

/-- `curr.parent` for the node at path `p` (`none` for the root). -/
def parentO (p : List Dir) : Option (List Dir) :=
  if p = [] then none else some p.dropLast

/-- `curr in prev.child`: the node at `p` is a child of the node at `q`.
Object identity on nodes of a tree without aliasing is path equality. -/
def isChildPath (q p : List Dir) : Bool :=
  p == q ++ [Dir.left] || p == q ++ [Dir.right]

/-- The loop of `Tree.traverse`, on states `(curr, prev, depth)` where the
pointers `curr` and `prev` are paths from the root (`none` is Python's
`None`).  Returns the list of `(node, depth)` arguments passed to the
callback.  The fuel only bounds the iteration count; `traverse` supplies
enough for the loop to run to completion. -/
def travLoop (t : RBNode) (order : Order) :
    Nat → Option (List Dir) → Option (List Dir) → Int → List (RBNode × Int)
  | 0, _, _, _ => []
  | _ + 1, none, _, _ => []
  | fuel + 1, some p, prev, depth =>
    let n := subtreeAt t p
    let arrived : Bool :=
      match prev with
      | none => true
      | some q => isChildPath q p
    if arrived = true then
      -- `not prev or curr in prev.child`: descending into `curr`.
      let d1 := depth + 1
      (if order = .pre then [(n, d1)] else []) ++
      (if (getChild n .left).isNil = false then
        travLoop t order fuel (some (p ++ [Dir.left])) (some p) d1
      else
        (if order = .ino then [(n, d1)] else []) ++
        (if (getChild n .right).isNil = false then
          travLoop t order fuel (some (p ++ [Dir.right])) (some p) d1
        else
          (if order = .post then [(n, d1)] else []) ++
          travLoop t order fuel (parentO p) (some p) d1))
    else if prev = some (p ++ [Dir.left]) then
      -- `prev is curr.child[LEFT]`: returning from the LEFT subtree.
      let d1 := depth - 1
      (if order = .ino then [(n, d1)] else []) ++
      (if (getChild n .right).isNil = false then
        travLoop t order fuel (some (p ++ [Dir.right])) (some p) d1
      else
        (if order = .post then [(n, d1)] else []) ++
        travLoop t order fuel (parentO p) (some p) d1)
    else if prev = some (p ++ [Dir.right]) then
      -- `prev is curr.child[RIGHT]`: returning from the RIGHT subtree.
      let d1 := depth - 1
      (if order = .post then [(n, d1)] else []) ++
      travLoop t order fuel (parentO p) (some p) d1
    else []  -- no branch applies: unreachable in runs started from the root

/-- `Tree.traverse(callback, process_order)`: the sequence of callback
invocations.  `curr, prev = self.__root, None; depth = 0`. -/
def traverse (t : Option RBNode) (order : Order) : List (RBNode × Int) :=
  match t with
  | none => []
  | some root => travLoop root order (3 * size root + 2) (some []) none 0

/-- The mutable debug state of `Tree.__inspect`: the visited-key dict
`self.__vals` and the running counter `self.__max_nodes[_ACTUAL]`. -/
structure VState where
  vals : List Int
  actual : Int
deriving DecidableEq

/-- `Tree.__inspect(nFocus)`: returns the black height of the subtree and
the updated debug state, or the exception the source raises.  Note the
`elif` chain of the child checks: the RIGHT-child red-red and order checks
only run when the LEFT child is a nil terminator. -/
def inspect (reported : Int) : RBNode → Bool → VState → Except PyErr (Int × VState)
  | .nil, _, st => .ok (1, st)
  | .node c k _ l r, isRoot, st =>
    let st1 : VState := { vals := st.vals, actual := st.actual + 1 }
    if k ∈ st1.vals then .error .referenceError
    else
      let st2 : VState := { vals := k :: st1.vals, actual := st1.actual }
      let chk : Except PyErr Unit :=
        if l.isNil = false then
          if c = .red ∧ colorOf l = .red then .error .valueError
          else if k < keyD l then .error .keyError  -- compare(nFocus, left) is LEFT
          else .ok ()
        else if r.isNil = false then
          if c = .red ∧ colorOf r = .red then .error .valueError
          else if keyD r < k then .error .keyError  -- compare(nFocus, right) is RIGHT
          else .ok ()
        else .ok ()
      match chk with
      | .error e => .error e
      | .ok _ =>
        match inspect reported l false st2 with
        | .error e => .error e
        | .ok bhL =>
          match inspect reported r false bhL.2 with
          | .error e => .error e
          | .ok bhR =>
            if bhL.1 > 0 ∧ bhR.1 > 0 ∧ bhL.1 ≠ bhR.1 then .error .valueError
            else if isRoot = true ∧ reported ≠ bhR.2.actual then .error .arithmeticError
            else
              .ok ((if bhL.1 = 0 ∧ bhR.1 = 0 then 0
                    else if c = .red then bhL.1 else bhL.1 + 1), bhR.2)

/-- `Tree.validate(_pre_action)` on a tree with debug flag `debug` and
reported node count `reported`; returns the new reported count.  The early
return on a non-debug or empty tree happens before the reported count is
adjusted. -/
def validate (debug : Bool) (t : Option RBNode) (reported : Int)
    (preAction : Option Intent) : Except PyErr Int :=
  if debug = false then .ok reported
  else
    match t with
    | none => .ok reported
    | some root =>
      let rep2 :=
        match preAction with
        | some .ins => reported + 1
        | some .del => reported - 1
        | _ => reported
      match inspect rep2 root true { vals := [], actual := 0 } with
      | .error _e => .error _e
      | .ok _ => .ok rep2

/-- A public mutation. -/
inductive Op where
  | insOp (k : Int) (v : PyVal)
  | delOp (k : Int)

/-- Run one public mutation; a raised exception leaves the tree unchanged
(both error branches of `find` fire before any mutation of the node graph). -/
def applyOp (t : Option RBNode) : Op → Option RBNode
  | .insOp k v =>
    match insert t (.int k) v with
    | .ok t' => t'
    | .error _ => t
  | .delOp k =>
    match delete t (.int k) with
    | .ok t' => t'
    | .error _ => t

/-- Run a sequence of public mutations starting from the empty tree. -/
def runOps (ops : List Op) : Option RBNode :=
  ops.foldl applyOp none

/-- Read the `value` attribute of the node with key `k` (outer `none`:
no such node; inner `none`: the attribute was never set). -/
def getAttrGo : RBNode → Int → Option (Option PyVal)
  | .nil, _ => none
  | .node _ key a l r, k =>
    if k < key then getAttrGo l k else if key < k then getAttrGo r k else some a

/-- `getAttrGo` on a whole tree. -/
def getAttr (t : Option RBNode) (k : Int) : Option (Option PyVal) :=
  match t with
  | none => none
  | some root => getAttrGo root k

/-- The key of the all-the-way-LEFT real node (the minimum key), i.e.
the node reached by the successor loop of `delete`. -/
def minKeyD : RBNode → Int
  | .nil => 0
  | .node _ k _ l _ => if l.isNil = true then k else minKeyD l

/-- The in-order key list of a whole tree. -/
def keysT : Option RBNode → List Int
  | none => []
  | some root => keyList root

/-! ## The red-black invariants (spec section 3, invariants 1 to 5) -/

/-- Invariant 2: no RED node has a RED child. -/
def redOk : RBNode → Bool
  | .nil => true
  | .node c _ _ l r =>
    (decide (c = .black) || (decide (colorOf l = .black) && decide (colorOf r = .black))) &&
      redOk l && redOk r

/-- Invariant 3: the number of BLACK nodes is the same on every path from
a node down to a nil terminator beneath it; `some n` is that common count
(the black height, counting the node itself when BLACK), `none` a mismatch
somewhere in the subtree. -/
def bhOpt : RBNode → Option Nat
  | .nil => some 0
  | .node c _ _ l r =>
    match bhOpt l, bhOpt r with
    | some a, some b =>
      if a = b then some (a + (if c = .black then 1 else 0)) else none
    | _, _ => none

/-- All keys of the subtree satisfy `p`. -/
def allKeys (p : Int → Bool) : RBNode → Bool
  | .nil => true
  | .node _ k _ l r => p k && allKeys p l && allKeys p r

/-- Invariant 5: strict binary-search-tree order at every node. -/
def bstOk : RBNode → Bool
  | .nil => true
  | .node _ k _ l r =>
    allKeys (fun x => decide (x < k)) l && allKeys (fun x => decide (k < x)) r &&
      bstOk l && bstOk r

/-- Invariants 1 to 5 of a whole tree (`none` is the empty tree).  The nil
terminator is BLACK, childless and keyless by construction of `RBNode`
(invariant 1), so the conditions on a non-empty tree are: a real BLACK
root (invariant 4), no double reds (invariant 2), a well-defined black
height (invariant 3) and strict search order (invariant 5). -/
def validT : Option RBNode → Prop
  | none => True
  | some root =>
    root.isNil = false ∧ colorOf root = .black ∧ redOk root = true ∧
      (bhOpt root).isSome = true ∧ bstOk root = true

/-- The number of real nodes of a whole tree. -/
def sizeT : Option RBNode → Nat
  | none => 0
  | some root => root.size

/-- The height of a whole tree: the maximum number of real nodes on a
root-to-nil path. -/
def heightT : Option RBNode → Nat
  | none => 0
  | some root => root.height

/-- A pure-insertion workload: one `insert` per `(key, payload)` pair. -/
def insList (ps : List (Int × PyVal)) : List Op :=
  ps.map fun p => Op.insOp p.1 p.2

/-- The number of loop iterations `Tree.traverse` spends inside the
subtree rooted at a node: one arrival plus, per real child, the child's
own iterations and the iteration that returns from it. -/
def steps : RBNode → Nat
  | .nil => 0
  | .node _ _ _ l r =>
    1 + (if l.isNil = false then steps l + 1 else 0) +
      (if r.isNil = false then steps r + 1 else 0)

/-- The callback invocations a recursive `process_order` walk of a subtree
would make, with the subtree's root at depth `d`: the reference sequence
the iterative `Tree.traverse` loop is compared against. -/
def visits (order : Order) : RBNode → Int → List (RBNode × Int)
  | .nil, _ => []
  | .node c k a l r, d =>
    (if order = .pre then [(.node c k a l r, d)] else []) ++
    visits order l (d + 1) ++
    (if order = .ino then [(.node c k a l r, d)] else []) ++
    visits order r (d + 1) ++
    (if order = .post then [(.node c k a l r, d)] else [])

/-- The loop guard `not prev or curr in prev.child` of `Tree.traverse`,
as a function of the two pointers. -/
def arrivedB (prev : Option (List Dir)) (p : List Dir) : Bool :=
  match prev with
  | none => true
  | some q => isChildPath q p

/-- A tree whose RED node 10 has a real LEFT child and a RED right child
carrying an out-of-order right grandchild: every violation sits on a RIGHT
child below a node whose LEFT child is real, exactly where the `elif`
chain of `Tree.__inspect` never looks.  Black heights are consistent and
it has 7 nodes. -/
def badTree : RBNode :=
  .node .black 20 none
    (.node .red 10 none
      (.node .black 5 none .nil .nil)
      (.node .red 15 none
        (.node .black 12 none .nil .nil)
        (.node .black 14 none .nil .nil)))
    (.node .black 25 none .nil .nil)

/-! ## Basic lemmas about the node helpers -/

@[simp] theorem colorOf_setColor (t : RBNode) (c : Color) (h : t.isNil = false) :
    colorOf (setColor t c) = c := by
  cases t with
  | nil => simp [isNil] at h
  | node => rfl

theorem setColor_self {t : RBNode} {c : Color} (h : colorOf t = c) : setColor t c = t := by
  cases t with
  | nil => rfl
  | node c' k a l r => cases h; rfl

@[simp] theorem inorder_setColor (t : RBNode) (c : Color) :
    inorder (setColor t c) = inorder t := by
  cases t <;> rfl

@[simp] theorem colorOf_plugFrame (f : Frame) (t : RBNode) :
    colorOf (plugFrame f t) = f.color := by
  cases hd : f.dir <;> simp [plugFrame, hd, colorOf]

@[simp] theorem isNil_plugFrame (f : Frame) (t : RBNode) :
    (plugFrame f t).isNil = false := by
  cases hd : f.dir <;> simp [plugFrame, hd, isNil]

theorem isNil_plug {p : Path} {s : RBNode} (h : s.isNil = false) :
    (plug p s).isNil = false := by
  induction p generalizing s with
  | nil => exact h
  | cons f p ih => exact ih (isNil_plugFrame f s)

/-- Decomposition of the in-order sequence around the hole of a path:
the part strictly to the LEFT of the hole. -/
def pLeft : Path → List (Int × Option PyVal)
  | [] => []
  | f :: p =>
    match f.dir with
    | .left => pLeft p
    | .right => pLeft p ++ inorder f.other ++ [(f.key, f.attr)]

/-- The part of the in-order sequence strictly to the RIGHT of the hole. -/
def pRight : Path → List (Int × Option PyVal)
  | [] => []
  | f :: p =>
    match f.dir with
    | .left => (f.key, f.attr) :: (inorder f.other ++ pRight p)
    | .right => pRight p

theorem inorder_plugFrame (f : Frame) (s : RBNode) :
    inorder (plugFrame f s) =
      (match f.dir with
        | .left => inorder s ++ (f.key, f.attr) :: inorder f.other
        | .right => inorder f.other ++ (f.key, f.attr) :: inorder s) := by
  cases hd : f.dir <;> simp [plugFrame, hd, inorder]

theorem inorder_plug (p : Path) (s : RBNode) :
    inorder (plug p s) = pLeft p ++ inorder s ++ pRight p := by
  induction p generalizing s with
  | nil => simp [plug, pLeft, pRight]
  | cons f p ih =>
    cases hd : f.dir <;>
      simp [plug, ih, inorder_plugFrame, hd, pLeft, pRight]

theorem inorder_rotateSub (t : RBNode) (d : Dir) :
    inorder (rotateSub t d) = inorder t := by
  cases t with
  | nil => cases d <;> rfl
  | node c k a l r =>
    cases d with
    | left =>
      cases r with
      | nil => rfl
      | node cc ck cv cl cr => simp [rotateSub, Dir.flip, getChild, setChild, inorder]
    | right =>
      cases l with
      | nil => rfl
      | node cc ck cv cl cr => simp [rotateSub, Dir.flip, getChild, setChild, inorder]

/-! ## The bundled balance invariant and its relation to invariants 2 and 3 -/

/-- `Bal t c n`: `t` has root color `c`, no RED node with a RED child, and
every path from the root to a nil terminator contains exactly `n` BLACK
nodes (the root included when BLACK). -/
inductive Bal : RBNode → Color → Nat → Prop
  | nil : Bal .nil .black 0
  | red {l r : RBNode} {k : Int} {a : Option PyVal} {n : Nat} :
      Bal l .black n → Bal r .black n → Bal (.node .red k a l r) .red n
  | black {l r : RBNode} {cl cr : Color} {k : Int} {a : Option PyVal} {n : Nat} :
      Bal l cl n → Bal r cr n → Bal (.node .black k a l r) .black (n + 1)

theorem Bal.color {t : RBNode} {c : Color} {n : Nat} (h : Bal t c n) :
    colorOf t = c := by
  cases h <;> rfl

theorem Bal.toRedOk {t : RBNode} {c : Color} {n : Nat} (h : Bal t c n) :
    redOk t = true := by
  induction h with
  | nil => rfl
  | red hl hr ihl ihr => simp [redOk, ihl, ihr, hl.color, hr.color]
  | black hl hr ihl ihr => simp [redOk, ihl, ihr]

theorem Bal.toBh {t : RBNode} {c : Color} {n : Nat} (h : Bal t c n) :
    bhOpt t = some n := by
  induction h with
  | nil => rfl
  | red hl hr ihl ihr => simp [bhOpt, ihl, ihr]
  | black hl hr ihl ihr => simp [bhOpt, ihl, ihr]

theorem bal_of_invariants {t : RBNode} {n : Nat}
    (hr : redOk t = true) (hb : bhOpt t = some n) : Bal t (colorOf t) n := by
  induction t generalizing n with
  | nil =>
    simp [bhOpt] at hb
    subst hb
    exact .nil
  | node c k a l r ihl ihr =>
    simp only [redOk, Bool.and_eq_true, Bool.or_eq_true, decide_eq_true_eq] at hr
    obtain ⟨⟨hc, hrl⟩, hrr⟩ := hr
    simp only [bhOpt] at hb
    cases hbl : bhOpt l with
    | none => simp [hbl] at hb
    | some nl =>
      cases hbr : bhOpt r with
      | none => simp [hbl, hbr] at hb
      | some nr =>
        simp only [hbl, hbr] at hb
        by_cases hnn : nl = nr
        · subst hnn
          simp only [if_pos rfl, Option.some.injEq] at hb
          cases c with
          | red =>
            simp only [colorOf]
            rcases hc with hc | ⟨hcl, hcr⟩
            · exact absurd hc (by simp)
            · have bl := ihl hrl hbl
              have br := ihr hrr hbr
              rw [hcl] at bl; rw [hcr] at br
              simp at hb
              exact hb ▸ Bal.red bl br
          | black =>
            simp only [colorOf]
            have bl := ihl hrl hbl
            have br := ihr hrr hbr
            simp at hb
            exact hb ▸ Bal.black bl br
        · simp [hnn] at hb

theorem Bal.setBlack_red {t : RBNode} {n : Nat} (h : Bal t .red n) :
    Bal (setColor t .black) .black (n + 1) := by
  cases h with
  | red hl hr => exact .black hl hr

theorem Bal.setBlack_any {t : RBNode} {c : Color} {n : Nat} (h : Bal t c n) :
    ∃ m, Bal (setColor t .black) .black m := by
  cases c with
  | red => exact ⟨n + 1, h.setBlack_red⟩
  | black => exact ⟨n, by rwa [setColor_self h.color]⟩

theorem Bal.setBlackKeep {t : RBNode} {n : Nat} (h : Bal t .black n) :
    Bal (setColor t .black) .black n := by
  rwa [setColor_self h.color]

theorem Bal.ne_nil {t : RBNode} {c : Color} {n : Nat} (h : Bal t c n)
    (hn : 0 < n ∨ c = .red) : t.isNil = false := by
  cases h with
  | nil => rcases hn with hn | hn <;> simp at hn
  | red _ _ => rfl
  | black _ _ => rfl

/-! ## Path balance: the invariant of a tree with a hole -/

/-- `PathBal n₀ p c n`: filling the hole of `p` with any tree satisfying
`Bal · c n` produces a whole tree satisfying `Bal · .black n₀`
(`PathBal.fill`).  A frame of a RED parent forces a BLACK hole; a frame of
a BLACK parent accepts any hole color. -/
inductive PathBal (n₀ : Nat) : Path → Color → Nat → Prop
  | root : PathBal n₀ [] .black n₀
  | redF {f : Frame} {p : Path} {n : Nat} :
      f.color = .red → Bal f.other .black n → PathBal n₀ p .red n →
      PathBal n₀ (f :: p) .black n
  | blackF {f : Frame} {p : Path} {n : Nat} {c c' : Color} :
      f.color = .black → Bal f.other c' n → PathBal n₀ p .black (n + 1) →
      PathBal n₀ (f :: p) c n

theorem bal_plugFrame_red {f : Frame} {s : RBNode} {n : Nat} (hf : f.color = .red)
    (hs : Bal s .black n) (ho : Bal f.other .black n) :
    Bal (plugFrame f s) .red n := by
  obtain ⟨d, c, k, a, o⟩ := f
  cases hf
  cases d with
  | left => exact .red hs ho
  | right => exact .red ho hs

theorem bal_plugFrame_black {f : Frame} {s : RBNode} {c c' : Color} {n : Nat}
    (hf : f.color = .black) (hs : Bal s c n) (ho : Bal f.other c' n) :
    Bal (plugFrame f s) .black (n + 1) := by
  obtain ⟨d, cc, k, a, o⟩ := f
  cases hf
  cases d with
  | left => exact .black hs ho
  | right => exact .black ho hs

theorem PathBal.fill {n₀ : Nat} {p : Path} {c : Color} {n : Nat} {s : RBNode}
    (hp : PathBal n₀ p c n) (hs : Bal s c n) : Bal (plug p s) .black n₀ := by
  induction hp generalizing s with
  | root => exact hs
  | redF hf ho _hp ih => exact ih (bal_plugFrame_red hf hs ho)
  | blackF hf ho _hp ih => exact ih (bal_plugFrame_black hf hs ho)

theorem PathBal.toBlack {n₀ : Nat} {p : Path} {n : Nat}
    (hp : PathBal n₀ p .red n) : PathBal n₀ p .black n := by
  cases hp with
  | blackF hf ho hp' => exact .blackF hf ho hp'

theorem PathBal.anyToBlack {n₀ : Nat} {p : Path} {c : Color} {n : Nat}
    (hp : PathBal n₀ p c n) : PathBal n₀ p .black n := by
  cases c with
  | red => exact hp.toBlack
  | black => exact hp

/-! ## Balance preservation of the insert fixup -/

/-- The loop invariant of `__insert_fixup`: the focus is a RED, internally
balanced subtree whose hole expects black height `n` (the hole's expected
color is unconstrained: when the parent is RED the expectation `black` is
violated, which is exactly the double-red the loop repairs). -/
theorem insertFixup_bal {n₀ : Nat} :
    ∀ (p : Path) {c : Color} {n : Nat} (s : RBNode),
      PathBal n₀ p c n → Bal s .red n → ∃ m, Bal (insertFixup p s) .black m
  | [], c, n, s, hp, hs => by
    cases hp
    exact ⟨_, by simpa [insertFixup] using hs.setBlack_red⟩
  | [pf], c, n, s, hp, hs => by
    cases hp with
    | redF hf ho hp' => cases hp'
    | blackF hf ho hp' =>
      cases hp'
      have hb := bal_plugFrame_black hf hs ho
      exact ⟨n + 1, by simpa [insertFixup, plug] using hb.setBlackKeep⟩
  | pf :: gf :: rest, c, n, s, hp, hs => by
    cases hp with
    | blackF hf ho hp' =>
      have hb := (hp'.fill (bal_plugFrame_black hf hs ho))
      exact ⟨n₀, by simpa [insertFixup, hf, plug] using hb.setBlackKeep⟩
    | redF hf ho hp' =>
      cases hp' with
      | blackF hgf hu hrest =>
        obtain ⟨cu, hu⟩ : ∃ cc, Bal gf.other cc n := ⟨_, hu⟩
        by_cases hcu : colorOf gf.other = .red
        · -- CLRS case 1
          have hcu' : cu = .red := hu.color.symm.trans hcu
          subst hcu'
          have inner : Bal (plugFrame { pf with color := .black } s) .black (n + 1) :=
            bal_plugFrame_black rfl hs ho
          have outer :
              Bal (plugFrame { gf with color := .red, other := setColor gf.other .black }
                (plugFrame { pf with color := .black } s)) .red (n + 1) :=
            bal_plugFrame_red rfl inner hu.setBlack_red
          have ⟨m, hm⟩ := insertFixup_bal rest _ hrest outer
          exact ⟨m, by simpa [insertFixup, hf, hcu] using hm⟩
        · -- CLRS cases 2 and 3
          have hcu' : cu = .black := by
            cases cu with
            | red => exact absurd hu.color hcu
            | black => rfl
          subst hcu'
          cases hs with
          | red hsl hsr =>
            rename_i sl sr sk sv
            obtain ⟨pd, pc, pk, pa, po⟩ := pf
            obtain ⟨gd, gc, gk, ga, go⟩ := gf
            have hpc : pc = Color.red := hf
            have hgc : gc = Color.black := hgf
            subst hpc; subst hgc
            have ho' : Bal po Color.black n := ho
            have hu' : Bal go Color.black n := hu
            have hufalse : (colorOf go = Color.red) = False :=
              eq_false (fun hx => hcu hx)
            cases gd with
            | left =>
              cases pd with
              | left =>
                -- outer grandchild, LEFT-LEFT
                have hR :
                    Bal (RBNode.node .black pk pa (.node .red sk sv sl sr)
                      (.node .red gk ga po go)) .black (n + 1) :=
                  .black (.red hsl hsr) (.red ho' hu')
                have hfill := hrest.fill hR
                refine ⟨n₀, ?_⟩
                simpa [insertFixup, hufalse, plugFrame, rotateSub, Dir.flip, getChild,
                  setChild, setColor, plug] using hfill.setBlackKeep
              | right =>
                -- inner grandchild, LEFT-RIGHT
                have hR :
                    Bal (RBNode.node .black sk sv (.node .red pk pa po sl)
                      (.node .red gk ga sr go)) .black (n + 1) :=
                  .black (.red ho' hsl) (.red hsr hu')
                have hfill := hrest.fill hR
                refine ⟨n₀, ?_⟩
                simpa [insertFixup, hufalse, plugFrame, rotateSub, Dir.flip, getChild,
                  setChild, setColor, plug] using hfill.setBlackKeep
            | right =>
              cases pd with
              | left =>
                -- inner grandchild, RIGHT-LEFT
                have hR :
                    Bal (RBNode.node .black sk sv (.node .red gk ga go sl)
                      (.node .red pk pa sr po)) .black (n + 1) :=
                  .black (.red hu' hsl) (.red hsr ho')
                have hfill := hrest.fill hR
                refine ⟨n₀, ?_⟩
                simpa [insertFixup, hufalse, plugFrame, rotateSub, Dir.flip, getChild,
                  setChild, setColor, plug] using hfill.setBlackKeep
              | right =>
                -- outer grandchild, RIGHT-RIGHT
                have hR :
                    Bal (RBNode.node .black pk pa (.node .red gk ga go po)
                      (.node .red sk sv sl sr)) .black (n + 1) :=
                  .black (.red hu' ho') (.red hsl hsr)
                have hfill := hrest.fill hR
                refine ⟨n₀, ?_⟩
                simpa [insertFixup, hufalse, plugFrame, rotateSub, Dir.flip, getChild,
                  setChild, setColor, plug] using hfill.setBlackKeep

/-! ## Balance preservation of the delete fixup -/

@[simp] theorem isNil_nil : (RBNode.nil).isNil = true := rfl

@[simp] theorem isNil_node (c : Color) (k : Int) (a : Option PyVal) (l r : RBNode) :
    (RBNode.node c k a l r).isNil = false := rfl

@[simp] theorem colorOf_nil : colorOf .nil = Color.black := rfl

@[simp] theorem colorOf_node (c : Color) (k : Int) (a : Option PyVal) (l r : RBNode) :
    colorOf (.node c k a l r) = c := rfl

theorem Bal.cast {t : RBNode} {c c' : Color} {n : Nat} (h : Bal t c n)
    (hc : colorOf t = c') : Bal t c' n := (h.color.symm.trans hc) ▸ h

theorem setColor_plugFrame (f : Frame) (s : RBNode) (c : Color) :
    setColor (plugFrame f s) c = plugFrame { f with color := c } s := by
  cases hd : f.dir <;> simp [plugFrame, hd, setColor]

/-- The state of the focus during `__delete_fixup`: a subtree one BLACK
short of what its hole expects; either internally balanced at height `n`
with a BLACK root, or RED-rooted such that painting it BLACK balances it
at height `n + 1` (a RED focus absorbs the deficiency at once). -/
def FixFocus (s : RBNode) (n : Nat) : Prop :=
  Bal s .black n ∨ (colorOf s = .red ∧ Bal (setColor s .black) .black (n + 1))

/-- CLRS cases 3 and 4 restore full balance: from a BLACK sibling with at
least one RED child and a BLACK-deficient focus, the rebuilt subtree is
balanced with the original parent color on top and no deficiency. -/
theorem delCase34_bal {n : Nat} (d : Dir) (pc : Color) (pk1 : Int) (pa1 : Option PyVal)
    (sk1 : Int) (sv1 : Option PyVal) {sl1 sr1 s : RBNode} {cl cr : Color}
    (hsl : Bal sl1 cl n) (hsr : Bal sr1 cr n)
    (hnb : ¬(colorOf sl1 = .black ∧ colorOf sr1 = .black))
    (hs : Bal s .black n) :
    Bal (delCase34
        { dir := d, color := pc, key := pk1, attr := pa1,
          other := RBNode.node .black sk1 sv1 sl1 sr1 } s)
      pc (n + 1 + (if pc = .black then 1 else 0)) := by
  cases d with
  | left =>
    by_cases hfar : colorOf sr1 = .black
    · -- case 3 applies: the near (LEFT-side) child is RED
      have hnear : colorOf sl1 = .red := by
        rcases hx : colorOf sl1 with _ | _
        · rfl
        · exact absurd ⟨hx, hfar⟩ hnb
      have hsl' := hsl.cast hnear
      cases hsl' with
      | red hsll hslr =>
        have hsr' := hsr.cast hfar
        simp only [delCase34, Dir.flip, getChild, setChild, setColor, rotateSub, plugFrame,
          colorOf_node, colorOf_nil, hfar, reduceIte]
        cases pc with
        | red =>
          simpa using Bal.red (.black hs hsll) (.black hslr hsr')
        | black =>
          simpa using Bal.black (.black hs hsll) (.black hslr hsr')
    · -- case 4 applies directly: the far (RIGHT-side) child is RED
      have hfar' : colorOf sr1 = .red := by
        rcases hx : colorOf sr1 with _ | _
        · rfl
        · exact absurd hx hfar
      have hsr' := hsr.cast hfar'
      cases hsr' with
      | red hsrl hsrr =>
        simp only [delCase34, Dir.flip, getChild, setChild, setColor, rotateSub, plugFrame,
          colorOf_node, colorOf_nil, hfar', reduceIte]
        cases pc with
        | red =>
          simpa using Bal.red (.black hs hsl) (.black hsrl hsrr)
        | black =>
          simpa using Bal.black (.black hs hsl) (.black hsrl hsrr)
  | right =>
    by_cases hfar : colorOf sl1 = .black
    · -- case 3 applies: the near (RIGHT-side) child is RED
      have hnear : colorOf sr1 = .red := by
        rcases hx : colorOf sr1 with _ | _
        · rfl
        · exact absurd ⟨hfar, hx⟩ hnb
      have hsr' := hsr.cast hnear
      cases hsr' with
      | red hsrl hsrr =>
        have hsl' := hsl.cast hfar
        simp only [delCase34, Dir.flip, getChild, setChild, setColor, rotateSub, plugFrame,
          colorOf_node, colorOf_nil, hfar, reduceIte]
        cases pc with
        | red =>
          simpa using Bal.red (.black hsl' hsrl) (.black hsrr hs)
        | black =>
          simpa using Bal.black (.black hsl' hsrl) (.black hsrr hs)
    · -- case 4 applies directly: the far (LEFT-side) child is RED
      have hfar' : colorOf sl1 = .red := by
        rcases hx : colorOf sl1 with _ | _
        · rfl
        · exact absurd hx hfar
      have hsl' := hsl.cast hfar'
      cases hsl' with
      | red hsll hslr =>
        simp only [delCase34, Dir.flip, getChild, setChild, setColor, rotateSub, plugFrame,
          colorOf_node, colorOf_nil, hfar', reduceIte]
        cases pc with
        | red =>
          simpa using Bal.red (.black hsll hslr) (.black hsr hs)
        | black =>
          simpa using Bal.black (.black hsll hslr) (.black hsr hs)

/-- The loop invariant of `__delete_fixup`: at every iteration the path is
balanced with a hole expecting black height `n + 1` while the focus is in
the BLACK-deficient state `FixFocus s n`.  The fuel only needs to exceed
the path length. -/
theorem deleteFixupGo_bal {n₀ : Nat} :
    ∀ (fuel : Nat) (p : Path) {c : Color} {n : Nat} (s : RBNode),
      p.length + 1 ≤ fuel → PathBal n₀ p c (n + 1) → FixFocus s n →
      ∃ m, Bal (deleteFixupGo fuel p s) .black m := by
  intro fuel
  induction fuel with
  | zero => intro p c n s hf _ _; omega
  | succ fuel ih =>
    intro p c n s hf hp hfoc
    match p with
    | [] =>
      cases hp
      rcases hfoc with h1 | ⟨_, h2⟩
      · exact ⟨n, by simpa [deleteFixupGo] using h1.setBlackKeep⟩
      · exact ⟨n + 1, by simpa [deleteFixupGo] using h2⟩
    | pf :: rest =>
      by_cases hred : colorOf s = .red
      · -- the loop exits at once, absorbing the deficiency into the RED focus
        rcases hfoc with h1 | ⟨_, h2⟩
        · rw [h1.color] at hred; exact absurd hred (by simp)
        · exact ⟨n₀, by simpa [deleteFixupGo, hred] using (hp.anyToBlack).fill h2⟩
      · have h1 : Bal s .black n := by
          rcases hfoc with h1 | ⟨hc2, _⟩
          · exact h1
          · exact absurd hc2 hred
        cases hp with
        | redF hfc hsib hrest =>
          -- RED parent: the sibling is BLACK, so CLRS case 1 does not fire
          obtain ⟨pd, pc, pk, pa, po⟩ := pf
          have hpc : pc = Color.red := hfc
          subst hpc
          have hsib' : Bal po .black (n + 1) := hsib
          cases hsib' with
          | @black sl1 sr1 cl cr sk1 sv1 nn hsl hsr =>
            by_cases hc2 : colorOf sl1 = .black ∧ colorOf sr1 = .black
            · -- CLRS case 2 under a RED parent: the next iteration exits,
              -- which the induction hypothesis derives from the RED focus
              refine (?_ : ∃ m, Bal (deleteFixupGo fuel rest
                (plugFrame
                  { dir := pd, color := .red, key := pk, attr := pa,
                    other := setColor (.node .black sk1 sv1 sl1 sr1) .red } s)) .black m).imp
                (fun m hm => ?_)
              · refine ih rest _ (by simp at hf ⊢; omega) hrest (Or.inr ⟨by simp, ?_⟩)
                rw [setColor_plugFrame]
                exact bal_plugFrame_black rfl h1 (.red (hsl.cast hc2.1) (hsr.cast hc2.2))
              · simpa [deleteFixupGo, hred, delCase1, hc2.1, hc2.2] using hm
            · -- CLRS cases 3 and 4 under a RED parent
              have hR := delCase34_bal pd .red pk pa sk1 sv1 hsl hsr hc2 h1
              have hfill := hrest.fill (by simpa using hR)
              refine ⟨n₀, ?_⟩
              have hc2' : (colorOf sl1 = Color.black ∧ colorOf sr1 = Color.black) = False :=
                eq_false hc2
              simpa [deleteFixupGo, hred, delCase1, hc2'] using hfill.setBlackKeep
        | blackF hfc hsib hrest =>
          obtain ⟨cs, hsib⟩ : ∃ cc, Bal pf.other cc (n + 1) := ⟨_, hsib⟩
          obtain ⟨pd, pc, pk, pa, po⟩ := pf
          have hpc : pc = Color.black := hfc
          subst hpc
          have hsib' : Bal po cs (n + 1) := hsib
          by_cases hcs : colorOf po = .red
          · -- CLRS case 1: RED sibling
            have hsibR := hsib'.cast hcs
            cases hsibR with
            | @red sl sr sk sv nn hsl hsr =>
              cases fuel with
              | zero => simp at hf
              | succ f2 =>
                cases pd with
                | left =>
                  -- the re-derived sibling is the RED sibling's LEFT child
                  cases hsl with
                  | @black nl nr ncl ncr nk nv nn2 hnl hnr =>
                    by_cases hcc : colorOf nl = .black ∧ colorOf nr = .black
                    · -- case 1 then case 2: the focus becomes the RED
                      -- parent and the following iteration exits
                      have pb : PathBal n₀
                          ({ dir := Dir.left, color := .black, key := sk, attr := sv,
                             other := sr } :: rest) .black (n + 1) :=
                        .blackF rfl hsr hrest
                      have hb : Bal (setColor (plugFrame
                          { dir := Dir.left, color := .red, key := pk, attr := pa,
                            other := setColor (.node .black nk nv nl nr) .red } s) .black)
                          .black (n + 1) := by
                        rw [setColor_plugFrame]
                        exact bal_plugFrame_black rfl h1
                          (.red (hnl.cast hcc.1) (hnr.cast hcc.2))
                      refine ⟨n₀, ?_⟩
                      simpa [deleteFixupGo, hred, delCase1, getChild, Dir.flip,
                        hcc.1, hcc.2] using pb.fill hb
                    · -- case 1 then cases 3 and 4
                      have hR := delCase34_bal Dir.left .red pk pa nk nv hnl hnr hcc h1
                      have pb : PathBal n₀
                          ({ dir := Dir.left, color := .black, key := sk, attr := sv,
                             other := sr } :: rest) .red (n + 1) :=
                        .blackF rfl hsr hrest
                      have hfill := pb.fill (by simpa using hR)
                      have hcc' : (colorOf nl = Color.black ∧ colorOf nr = Color.black) = False :=
                        eq_false hcc
                      refine ⟨n₀, ?_⟩
                      simpa [deleteFixupGo, hred, delCase1, getChild, Dir.flip, hcc']
                        using hfill.setBlackKeep
                | right =>
                  -- the re-derived sibling is the RED sibling's RIGHT child
                  cases hsr with
                  | @black nl nr ncl ncr nk nv nn2 hnl hnr =>
                    by_cases hcc : colorOf nl = .black ∧ colorOf nr = .black
                    · have pb : PathBal n₀
                          ({ dir := Dir.right, color := .black, key := sk, attr := sv,
                             other := sl } :: rest) .black (n + 1) :=
                        .blackF rfl hsl hrest
                      have hb : Bal (setColor (plugFrame
                          { dir := Dir.right, color := .red, key := pk, attr := pa,
                            other := setColor (.node .black nk nv nl nr) .red } s) .black)
                          .black (n + 1) := by
                        rw [setColor_plugFrame]
                        exact bal_plugFrame_black rfl h1
                          (.red (hnl.cast hcc.1) (hnr.cast hcc.2))
                      refine ⟨n₀, ?_⟩
                      simpa [deleteFixupGo, hred, delCase1, getChild, Dir.flip,
                        hcc.1, hcc.2] using pb.fill hb
                    · have hR := delCase34_bal Dir.right .red pk pa nk nv hnl hnr hcc h1
                      have pb : PathBal n₀
                          ({ dir := Dir.right, color := .black, key := sk, attr := sv,
                             other := sl } :: rest) .red (n + 1) :=
                        .blackF rfl hsl hrest
                      have hfill := pb.fill (by simpa using hR)
                      have hcc' : (colorOf nl = Color.black ∧ colorOf nr = Color.black) = False :=
                        eq_false hcc
                      refine ⟨n₀, ?_⟩
                      simpa [deleteFixupGo, hred, delCase1, getChild, Dir.flip, hcc']
                        using hfill.setBlackKeep
          · -- BLACK sibling: no case 1
            have hcsb : colorOf po = .black := by
              rcases hx : colorOf po with _ | _
              · exact absurd hx hcs
              · rfl
            have hsibB := hsib'.cast hcsb
            cases hsibB with
            | @black sl1 sr1 cl cr sk1 sv1 nn hsl hsr =>
              by_cases hc2 : colorOf sl1 = .black ∧ colorOf sr1 = .black
              · -- CLRS case 2 under a BLACK parent: recurse one frame up
                refine (?_ : ∃ m, Bal (deleteFixupGo fuel rest
                  (plugFrame
                    { dir := pd, color := .black, key := pk, attr := pa,
                      other := setColor (.node .black sk1 sv1 sl1 sr1) .red } s)) .black m).imp
                  (fun m hm => ?_)
                · refine ih rest _ (by simp at hf ⊢; omega) hrest (Or.inl ?_)
                  exact bal_plugFrame_black rfl h1 (.red (hsl.cast hc2.1) (hsr.cast hc2.2))
                · simpa [deleteFixupGo, hred, delCase1, hcsb, hc2.1, hc2.2] using hm
              · -- CLRS cases 3 and 4 under a BLACK parent
                have hR := delCase34_bal pd .black pk pa sk1 sv1 hsl hsr hc2 h1
                have hfill := hrest.fill (by simpa using hR)
                have hc2' : (colorOf sl1 = Color.black ∧ colorOf sr1 = Color.black) = False :=
                  eq_false hc2
                refine ⟨n₀, ?_⟩
                simpa [deleteFixupGo, hred, delCase1, hcsb, hc2'] using hfill.setBlackKeep

/-! ## The fixups only rotate and recolor: the in-order sequence is kept -/

theorem inorder_plugFrame_congr {f g : Frame} {s s' : RBNode} (hd : f.dir = g.dir)
    (hk : f.key = g.key) (ha : f.attr = g.attr) (ho : inorder f.other = inorder g.other)
    (hs : inorder s = inorder s') : inorder (plugFrame f s) = inorder (plugFrame g s') := by
  rw [inorder_plugFrame, inorder_plugFrame, ← hd, hk, ha, ho, hs]

theorem inorder_insertFixup : ∀ (p : Path) (s : RBNode),
    inorder (insertFixup p s) = inorder (plug p s)
  | [], s => by simp [insertFixup, plug]
  | [pf], s => by simp [insertFixup, plug]
  | pf :: gf :: rest, s => by
    by_cases hpf : pf.color = .red
    · by_cases hcu : colorOf gf.other = .red
      · rw [show insertFixup (pf :: gf :: rest) s =
            insertFixup rest
              (plugFrame { gf with color := .red, other := setColor gf.other .black }
                (plugFrame { pf with color := .black } s)) by
          simp [insertFixup, hpf, hcu]]
        rw [inorder_insertFixup rest _]
        have hmid :
            inorder (plugFrame { gf with color := .red, other := setColor gf.other .black }
              (plugFrame { pf with color := .black } s)) =
            inorder (plugFrame gf (plugFrame pf s)) :=
          inorder_plugFrame_congr rfl rfl rfl (inorder_setColor _ _)
            (inorder_plugFrame_congr rfl rfl rfl rfl rfl)
        simp only [plug, inorder_plug, hmid]
      · rw [show insertFixup (pf :: gf :: rest) s =
            setColor
              (plug rest
                (rotateSub
                  (plugFrame { gf with color := .red }
                    (setColor
                      (if pf.dir = gf.dir.flip then rotateSub (plugFrame pf s) gf.dir
                        else plugFrame pf s) .black)) gf.dir.flip)) .black by
          simp [insertFixup, hpf, hcu]]
        have hmid :
            inorder (setColor
              (if pf.dir = gf.dir.flip then rotateSub (plugFrame pf s) gf.dir
                else plugFrame pf s) .black) = inorder (plugFrame pf s) := by
          rw [inorder_setColor]
          by_cases hd : pf.dir = gf.dir.flip
          · rw [if_pos hd, inorder_rotateSub]
          · rw [if_neg hd]
        have hmid2 :
            inorder (plugFrame { gf with color := .red }
              (setColor
                (if pf.dir = gf.dir.flip then rotateSub (plugFrame pf s) gf.dir
                  else plugFrame pf s) .black)) =
            inorder (plugFrame gf (plugFrame pf s)) :=
          inorder_plugFrame_congr rfl rfl rfl rfl hmid
        simp only [inorder_setColor, inorder_plug, inorder_rotateSub, plug, hmid2]
    · simp [insertFixup, hpf, plug]

theorem inorder_delCase34 (p1 : Frame) (s : RBNode) :
    inorder (delCase34 p1 s) = inorder (plugFrame p1 s) := by
  obtain ⟨pd, pc, pk, pa, po⟩ := p1
  cases po with
  | nil => rfl
  | node sc1 sk1 sv1 sl1 sr1 =>
    rcases sl1 with _ | ⟨_ | _, k2, a2, l2, r2⟩ <;>
      rcases sr1 with _ | ⟨_ | _, k3, a3, l3, r3⟩ <;>
      cases pd <;>
      simp [delCase34, Dir.flip, getChild, setChild, setColor, rotateSub, plugFrame, inorder]

theorem inorder_plug_delCase1 (pf : Frame) (rest : Path) (s : RBNode) :
    inorder (plug ((delCase1 pf rest).1 :: (delCase1 pf rest).2) s) =
      inorder (plug (pf :: rest) s) := by
  obtain ⟨pd, pc, pk, pa, po⟩ := pf
  cases po with
  | nil => rfl
  | node sc sk sv sl sr =>
    cases sc with
    | black => rfl
    | red =>
      cases pd <;>
        simp [delCase1, Dir.flip, getChild, plug, inorder_plug, inorder_plugFrame, inorder]

theorem inorder_deleteFixupGo : ∀ (fuel : Nat) (p : Path) (s : RBNode),
    inorder (deleteFixupGo fuel p s) = inorder (plug p s)
  | 0, p, s => rfl
  | fuel + 1, [], s => by simp [deleteFixupGo, plug]
  | fuel + 1, pf :: rest, s => by
    by_cases hred : colorOf s = .red
    · simp [deleteFixupGo, hred, inorder_plug]
    · rw [show deleteFixupGo (fuel + 1) (pf :: rest) s =
          (match (delCase1 pf rest).1.other with
            | .nil => plug ((delCase1 pf rest).1 :: (delCase1 pf rest).2) s
            | .node sc1 sk1 sv1 sl1 sr1 =>
              if colorOf sl1 = .black ∧ colorOf sr1 = .black then
                deleteFixupGo fuel (delCase1 pf rest).2
                  (plugFrame { (delCase1 pf rest).1 with
                    other := setColor (.node sc1 sk1 sv1 sl1 sr1) .red } s)
              else
                setColor (plug (delCase1 pf rest).2 (delCase34 (delCase1 pf rest).1 s)) .black) by
        simp [deleteFixupGo, hred]]
      rw [← inorder_plug_delCase1 pf rest s]
      rcases ho : (delCase1 pf rest).1.other with _ | ⟨sc1, sk1, sv1, sl1, sr1⟩
      · rfl
      · dsimp only
        by_cases hc2 : colorOf sl1 = .black ∧ colorOf sr1 = .black
        · rw [if_pos hc2, inorder_deleteFixupGo fuel _ _]
          have hmid : inorder (plugFrame { (delCase1 pf rest).1 with
              other := setColor (.node sc1 sk1 sv1 sl1 sr1) .red } s) =
              inorder (plugFrame (delCase1 pf rest).1 s) :=
            inorder_plugFrame_congr rfl rfl rfl (by rw [inorder_setColor, ho]) rfl
          simp only [plug, inorder_plug, hmid]
        · rw [if_neg hc2, inorder_setColor]
          simp only [plug, inorder_plug, inorder_delCase34]

/-! ## Search path lemmas -/

theorem findZip_plug (k : Int) : ∀ (t : RBNode) (acc : Path),
    plug (findZip k t acc).1 (findZip k t acc).2 = plug acc t
  | .nil, _ => rfl
  | .node c key a l r, acc => by
    simp only [findZip]
    by_cases h1 : k < key
    · rw [if_pos h1, findZip_plug k l _]; rfl
    · rw [if_neg h1]
      by_cases h2 : key < k
      · rw [if_pos h2, findZip_plug k r _]; rfl
      · rw [if_neg h2]

theorem findZip_pathBal {n₀ : Nat} (k : Int) : ∀ (t : RBNode) (acc : Path) {c : Color} {n : Nat},
    Bal t c n → PathBal n₀ acc c n →
    ∃ c' n', Bal (findZip k t acc).2 c' n' ∧ PathBal n₀ (findZip k t acc).1 c' n'
  | .nil, acc, c, n, ht, hacc => by
    cases ht
    exact ⟨.black, 0, .nil, hacc⟩
  | .node cc key a l r, acc, c, n, ht, hacc => by
    simp only [findZip]
    by_cases h1 : k < key
    · rw [if_pos h1]
      cases ht with
      | red hl hr => exact findZip_pathBal k l _ hl (.redF rfl hr hacc)
      | black hl hr => exact findZip_pathBal k l _ hl (.blackF rfl hr hacc)
    · rw [if_neg h1]
      by_cases h2 : key < k
      · rw [if_pos h2]
        cases ht with
        | red hl hr => exact findZip_pathBal k r _ hr (.redF rfl hl hacc)
        | black hl hr => exact findZip_pathBal k r _ hr (.blackF rfl hl hacc)
      · rw [if_neg h2]
        exact ⟨c, n, ht, hacc⟩

/-! ## Invariant 5 as sortedness of the in-order key list -/

@[simp] theorem keyList_nil : keyList .nil = [] := rfl

@[simp] theorem keyList_node (c : Color) (k : Int) (a : Option PyVal) (l r : RBNode) :
    keyList (.node c k a l r) = keyList l ++ k :: keyList r := by
  simp [keyList, inorder]

theorem allKeys_iff {p : Int → Bool} : ∀ {t : RBNode},
    allKeys p t = true ↔ ∀ x ∈ keyList t, p x = true := by
  intro t
  induction t with
  | nil => simp [allKeys]
  | node c k a l r ihl ihr =>
    simp only [allKeys, Bool.and_eq_true, ihl, ihr, keyList_node, List.mem_append,
      List.mem_cons]
    constructor
    · rintro ⟨⟨hk, hl⟩, hr⟩ x (hx | hx | hx)
      · exact hl x hx
      · exact hx ▸ hk
      · exact hr x hx
    · intro h
      exact ⟨⟨h k (Or.inr (Or.inl rfl)), fun x hx => h x (Or.inl hx)⟩,
        fun x hx => h x (Or.inr (Or.inr hx))⟩

theorem bstOk_iff : ∀ {t : RBNode}, bstOk t = true ↔ List.Pairwise (· < ·) (keyList t) := by
  intro t
  induction t with
  | nil => simp [bstOk]
  | node c k a l r ihl ihr =>
    simp only [bstOk, Bool.and_eq_true, ihl, ihr, keyList_node, List.pairwise_append,
      List.pairwise_cons, allKeys_iff, decide_eq_true_eq, List.mem_cons]
    constructor
    · rintro ⟨⟨⟨hlk, hkr⟩, hl⟩, hr⟩
      refine ⟨hl, ⟨hkr, hr⟩, ?_⟩
      rintro x hx y (rfl | hy)
      · exact hlk x hx
      · exact lt_trans (hlk x hx) (hkr y hy)
    · rintro ⟨hl, ⟨hkr, hr⟩, hcross⟩
      exact ⟨⟨⟨fun x hx => hcross x hx k (Or.inl rfl), hkr⟩, hl⟩, hr⟩

/-- The keys strictly to the LEFT of the hole of a path. -/
def pKeysL (p : Path) : List Int := (pLeft p).map Prod.fst

/-- The keys strictly to the RIGHT of the hole of a path. -/
def pKeysR (p : Path) : List Int := (pRight p).map Prod.fst

/-- The search loop of `find` keeps the sought key strictly between the
keys on the two sides of the hole, and stops either on a nil terminator or
on a real node carrying exactly the sought key. -/
theorem findZip_bounds (k : Int) : ∀ (t : RBNode) (acc : Path),
    bstOk t = true →
    (∀ x ∈ pKeysL acc, x < k) → (∀ x ∈ pKeysR acc, k < x) →
    (∀ x ∈ pKeysL (findZip k t acc).1, x < k) ∧
    (∀ x ∈ pKeysR (findZip k t acc).1, k < x) ∧
    ((findZip k t acc).2 = .nil ∨
      ∃ c a l r, (findZip k t acc).2 = .node c k a l r ∧ bstOk (RBNode.node c k a l r) = true)
  | .nil, acc, _, hL, hR => ⟨hL, hR, Or.inl rfl⟩
  | .node c key a l r, acc, hbst, hL, hR => by
    simp only [bstOk, Bool.and_eq_true] at hbst
    obtain ⟨⟨⟨hal, har⟩, hbl⟩, hbr⟩ := hbst
    simp only [findZip]
    by_cases h1 : k < key
    · rw [if_pos h1]
      refine findZip_bounds k l _ hbl hL ?_
      intro x hx
      simp [pKeysR, pRight] at hx
      rcases hx with rfl | hx | hx
      · exact h1
      · have := (allKeys_iff.1 har) x (by simpa [keyList] using hx)
        simp only [decide_eq_true_eq] at this
        exact lt_trans h1 this
      · obtain ⟨w, hw⟩ := hx
        exact hR x (List.mem_map_of_mem _ hw)
    · rw [if_neg h1]
      by_cases h2 : key < k
      · rw [if_pos h2]
        refine findZip_bounds k r _ hbr ?_ hR
        intro x hx
        simp [pKeysL, pLeft] at hx
        rcases hx with hx | hx | rfl
        · obtain ⟨w, hw⟩ := hx
          exact hL x (List.mem_map_of_mem _ hw)
        · have := (allKeys_iff.1 hal) x (by simpa [keyList] using hx)
          simp only [decide_eq_true_eq] at this
          exact lt_trans this h2
        · exact h2
      · rw [if_neg h2]
        have hkk : key = k := by omega
        subst hkk
        refine ⟨hL, hR, Or.inr ⟨c, a, l, r, rfl, ?_⟩⟩
        simp [bstOk, hal, har, hbl, hbr]

/-! ## Characterization of find and insert -/

theorem inorder_ne_nil_isNil {t : RBNode} (h : inorder t ≠ []) : t.isNil = false := by
  cases t with
  | nil => simp [inorder] at h
  | node c k a l r => rfl

theorem validT_of_bal {rt : RBNode} {n : Nat} (hb : Bal rt .black n)
    (hs : List.Pairwise (· < ·) (keyList rt)) (hne : rt.isNil = false) :
    validT (some rt) :=
  ⟨hne, hb.color, hb.toRedOk, by simp [hb.toBh], bstOk_iff.2 hs⟩

theorem validT_bal {rt : RBNode} (hv : validT (some rt)) : ∃ n, Bal rt .black n := by
  obtain ⟨hne, hc, hr, hbh, _⟩ := hv
  obtain ⟨n, hn⟩ := Option.isSome_iff_exists.1 hbh
  exact ⟨n, (bal_of_invariants hr hn).cast hc⟩

theorem validT_bst {rt : RBNode} (hv : validT (some rt)) :
    List.Pairwise (· < ·) (keyList rt) := bstOk_iff.1 hv.2.2.2.2

/-- Decomposition of a tree around the position located by the search
loop: the in-order sequence splits at the hole, the sought key separates
the two sides, and the focus is either a nil terminator (key absent) or a
node with exactly the sought key. -/
theorem findZip_split {rt : RBNode} (k : Int) (hbst : bstOk rt = true) :
    inorder rt =
      pLeft (findZip k rt []).1 ++ inorder (findZip k rt []).2 ++ pRight (findZip k rt []).1 ∧
    (∀ x ∈ pKeysL (findZip k rt []).1, x < k) ∧
    (∀ x ∈ pKeysR (findZip k rt []).1, k < x) ∧
    ((findZip k rt []).2 = .nil ∨
      ∃ c a l r, (findZip k rt []).2 = .node c k a l r ∧
        bstOk (RBNode.node c k a l r) = true) := by
  have hplug := findZip_plug k rt []
  have hb := findZip_bounds k rt [] hbst (by simp [pKeysL, pLeft]) (by simp [pKeysR, pRight])
  refine ⟨?_, hb.1, hb.2.1, hb.2.2⟩
  conv =>
    lhs
    rw [show rt = plug [] rt from rfl, ← hplug]
  rw [inorder_plug]

theorem mem_keyList_of_split {rt : RBNode} {k : Int} (hbst : bstOk rt = true)
    (hk : k ∈ keyList rt) :
    ∃ c a l r, (findZip k rt []).2 = .node c k a l r ∧
      bstOk (RBNode.node c k a l r) = true := by
  obtain ⟨hdec, hL, hR, hres⟩ := findZip_split k hbst
  rcases hres with hnil | hres
  · exfalso
    rw [show keyList rt = (inorder rt).map Prod.fst from rfl, hdec, hnil] at hk
    simp only [inorder, List.append_nil, List.map_append, List.mem_append] at hk
    rcases hk with hk | hk
    · exact absurd (hL k hk) (by omega)
    · exact absurd (hR k hk) (by omega)
  · exact hres

theorem not_mem_keyList_of_split {rt : RBNode} {k : Int} (hbst : bstOk rt = true)
    (hk : k ∉ keyList rt) : (findZip k rt []).2 = .nil := by
  obtain ⟨hdec, hL, hR, hres⟩ := findZip_split k hbst
  rcases hres with hnil | ⟨c, a, l, r, hnode, _⟩
  · exact hnil
  · exfalso
    refine hk ?_
    rw [show keyList rt = (inorder rt).map Prod.fst from rfl, hdec, hnode]
    simp [inorder]

/-- `insert` of an absent key: it succeeds, the new pair is placed at the
search position inside the in-order sequence, and the result is a valid
tree.  The stored attribute is the payload when truthy, otherwise absent. -/
theorem insert_ok {rt : RBNode} {k : Int} (v : PyVal)
    (hv : validT (some rt)) (hk : k ∉ keysT (some rt)) :
    ∃ rt' A B, insert (some rt) (.int k) v = .ok (some rt') ∧ validT (some rt') ∧
      inorder rt = A ++ B ∧
      inorder rt' = A ++ (k, if truthy v = true then some v else none) :: B ∧
      (∀ x ∈ A.map Prod.fst, x < k) ∧ (∀ x ∈ B.map Prod.fst, k < x) := by
  have hbst : bstOk rt = true := hv.2.2.2.2
  have hnil : (findZip k rt []).2 = .nil :=
    not_mem_keyList_of_split hbst (by simpa [keysT] using hk)
  obtain ⟨hdec, hL, hR, _⟩ := findZip_split k hbst
  rw [hnil] at hdec
  simp only [inorder, List.append_nil] at hdec
  obtain ⟨n₀, hb⟩ := validT_bal hv
  obtain ⟨c', n', hbal2, hpath⟩ := findZip_pathBal k rt [] hb .root
  rw [hnil] at hbal2
  have hc0 : c' = .black := by cases hbal2; rfl
  have hn0 : n' = 0 := by cases hbal2; rfl
  subst hc0; subst hn0
  have hnew : Bal (newNode k v) .red 0 := by
    have : Bal (RBNode.node .red k (if truthy v = true then some v else none) .nil .nil)
        .red 0 := .red .nil .nil
    simpa [newNode] using this
  obtain ⟨m, hm⟩ := insertFixup_bal (findZip k rt []).1 (newNode k v) hpath hnew
  have hio : inorder (insertFixup (findZip k rt []).1 (newNode k v)) =
      pLeft (findZip k rt []).1 ++
        (k, if truthy v = true then some v else none) :: pRight (findZip k rt []).1 := by
    rw [inorder_insertFixup, inorder_plug]
    simp [newNode, inorder]
  refine ⟨insertFixup (findZip k rt []).1 (newNode k v),
    pLeft (findZip k rt []).1, pRight (findZip k rt []).1, ?_, ?_, hdec, hio, hL, hR⟩
  · simp [insert, find, hnil, isNil]
  · refine validT_of_bal hm ?_ (inorder_ne_nil_isNil (by simp [hio]))
    have hs : List.Pairwise (· < ·) (keyList rt) := validT_bst hv
    rw [show keyList rt = (inorder rt).map Prod.fst from rfl, hdec] at hs
    rw [show keyList (insertFixup (findZip k rt []).1 (newNode k v)) =
      (inorder (insertFixup (findZip k rt []).1 (newNode k v))).map Prod.fst from rfl, hio]
    simp only [List.map_append, List.map_cons] at hs ⊢
    rw [List.pairwise_append] at hs
    obtain ⟨hpA, hpB, hcross⟩ := hs
    rw [List.pairwise_append]
    refine ⟨hpA, List.pairwise_cons.2 ⟨fun y hy => hR y hy, hpB⟩, ?_⟩
    intro x hx y hy
    rcases List.mem_cons.1 hy with rfl | hy
    · exact hL x hx
    · exact hcross x hx y hy

/-- `insert` of a present key fails with the duplicate-key error
(`LookupError`, raised by `find` in insert-preparation mode). -/
theorem insert_dup {rt : RBNode} {k : Int} (v : PyVal) (hbst : bstOk rt = true)
    (hk : k ∈ keysT (some rt)) :
    insert (some rt) (.int k) v = .error .lookupError := by
  obtain ⟨c, a, l, r, hnode, _⟩ := mem_keyList_of_split hbst (by simpa [keysT] using hk)
  simp [insert, find, hnode, isNil]

/-! ## Lemmas about the successor descent of delete -/

theorem plug_append : ∀ (xs q : Path) (s : RBNode),
    plug (xs ++ q) s = plug q (plug xs s)
  | [], q, s => rfl
  | f :: xs, q, s => by simp [plug, plug_append xs q _]

theorem pLeft_append : ∀ (xs q : Path), pLeft (xs ++ q) = pLeft q ++ pLeft xs
  | [], q => by simp [pLeft]
  | f :: xs, q => by
    cases hd : f.dir <;> simp [pLeft, hd, pLeft_append xs q]

theorem pRight_append : ∀ (xs q : Path), pRight (xs ++ q) = pRight xs ++ pRight q
  | [], q => by simp [pRight]
  | f :: xs, q => by
    cases hd : f.dir <;> simp [pRight, hd, pRight_append xs q]

theorem leftSpine_shift : ∀ (t : RBNode) (acc : Path),
    leftSpine t acc = ((leftSpine t []).1 ++ acc, (leftSpine t []).2)
  | .nil, acc => by simp [leftSpine]
  | .node c k a l r, acc => by
    by_cases hl : l.isNil = true
    · simp [leftSpine, hl]
    · rw [show leftSpine (.node c k a l r) acc =
          leftSpine l ({ dir := .left, color := c, key := k, attr := a, other := r } :: acc)
          from by simp [leftSpine, hl]]
      rw [leftSpine_shift l _,
        show leftSpine (.node c k a l r) [] =
          leftSpine l [{ dir := .left, color := c, key := k, attr := a, other := r }]
          from by simp [leftSpine, hl],
        leftSpine_shift l [{ dir := .left, color := c, key := k, attr := a, other := r }]]
      simp

theorem leftSpine_plug (t : RBNode) : ∀ (acc : Path),
    plug (leftSpine t acc).1 (leftSpine t acc).2 = plug acc t := by
  induction t with
  | nil => intro acc; simp [leftSpine]
  | node c k a l r ihl ihr =>
    intro acc
    by_cases hl : l.isNil = true
    · simp [leftSpine, hl]
    · rw [show leftSpine (.node c k a l r) acc =
          leftSpine l ({ dir := .left, color := c, key := k, attr := a, other := r } :: acc)
          from by simp [leftSpine, hl], ihl]
      rfl

/-- The node reached by the successor loop is real and has a nil LEFT
child, and its key is the minimum key of the subtree it started from. -/
theorem leftSpine_real (t : RBNode) (ht : t.isNil = false) : ∀ (acc : Path),
    ∃ rc rk rv rr, (leftSpine t acc).2 = .node rc rk rv .nil rr ∧ rk = minKeyD t := by
  induction t with
  | nil => simp [isNil] at ht
  | node c k a l r ihl ihr =>
    intro acc
    by_cases hl : l.isNil = true
    · refine ⟨c, k, a, r, ?_, ?_⟩
      · cases l with
        | nil => simp [leftSpine, hl]
        | node => simp [isNil] at hl
      · simp [minKeyD, hl]
    · have := ihl (by simpa using hl)
        ({ dir := .left, color := c, key := k, attr := a, other := r } :: acc)
      rw [show leftSpine (.node c k a l r) acc =
        leftSpine l ({ dir := .left, color := c, key := k, attr := a, other := r } :: acc)
        from by simp [leftSpine, hl]]
      simpa [minKeyD, hl] using this

theorem leftSpine_pathBal {n₀ : Nat} : ∀ (t : RBNode) (acc : Path) {c : Color} {n : Nat},
    Bal t c n → PathBal n₀ acc c n →
    ∃ c' n', Bal (leftSpine t acc).2 c' n' ∧ PathBal n₀ (leftSpine t acc).1 c' n'
  | .nil, acc, c, n, ht, hacc => by
    cases ht
    exact ⟨.black, 0, .nil, hacc⟩
  | .node cc key a l r, acc, c, n, ht, hacc => by
    by_cases hl : l.isNil = true
    · rw [show leftSpine (.node cc key a l r) acc = (acc, .node cc key a l r)
        from by simp [leftSpine, hl]]
      exact ⟨c, n, ht, hacc⟩
    · rw [show leftSpine (.node cc key a l r) acc =
        leftSpine l ({ dir := .left, color := cc, key := key, attr := a, other := r } :: acc)
        from by simp [leftSpine, hl]]
      cases ht with
      | red hl' hr' => exact leftSpine_pathBal l _ hl' (.redF rfl hr' hacc)
      | black hl' hr' => exact leftSpine_pathBal l _ hl' (.blackF rfl hr' hacc)

theorem leftSpine_pLeft (t : RBNode) : pLeft (leftSpine t []).1 = [] := by
  induction t with
  | nil => simp [leftSpine, pLeft]
  | node c k a l r ihl ihr =>
    by_cases hl : l.isNil = true
    · simp [leftSpine, hl, pLeft]
    · rw [show leftSpine (.node c k a l r) [] =
        leftSpine l [{ dir := .left, color := c, key := k, attr := a, other := r }]
        from by simp [leftSpine, hl], leftSpine_shift l _, pLeft_append]
      simp [pLeft, ihl]

theorem plug_cons_inorder_ne (f : Frame) (p : Path) (s : RBNode) :
    inorder (plug (f :: p) s) ≠ [] := by
  cases hd : f.dir <;>
    simp [plug, inorder_plug, inorder_plugFrame, hd]

@[simp] theorem isNil_setColor (t : RBNode) (c : Color) :
    (setColor t c).isNil = t.isNil := by
  cases t <;> rfl

/-! ## Characterization of delete -/

/-- The in-order pair list of a whole tree. -/
def inorderT : Option RBNode → List (Int × Option PyVal)
  | none => []
  | some rt => inorder rt

theorem isNil_iff {t : RBNode} : t.isNil = true ↔ t = .nil := by
  cases t <;> simp [isNil]

theorem fixFocus_of_bal {t : RBNode} {c : Color} {n : Nat} (h : Bal t c n) :
    FixFocus t n := by
  cases c with
  | black => exact Or.inl h
  | red => exact Or.inr ⟨h.color, h.setBlack_red⟩

/-- `delete` of a present key: it succeeds and excises exactly one
in-order pair.  When the node has two real children the excised pair is
the in-order successor `(minKeyD r, rv2)`, and the focused node keeps its
own attribute under the successor's key; otherwise the node's own pair is
removed. -/
theorem delete_ok {rt : RBNode} {k : Int}
    (hv : validT (some rt)) (hk : k ∈ keysT (some rt)) :
    ∃ t' c' a l r, (findZip k rt []).2 = .node c' k a l r ∧
      delete (some rt) (.int k) = .ok t' ∧ validT t' ∧
      ((¬(l.isNil = false ∧ r.isNil = false) ∧
        ∃ X Y, inorder rt = X ++ (k, a) :: Y ∧ inorderT t' = X ++ Y) ∨
       (l.isNil = false ∧ r.isNil = false ∧
        ∃ X Y rv2, inorder rt = X ++ (k, a) :: (minKeyD r, rv2) :: Y ∧
          inorderT t' = X ++ (minKeyD r, a) :: Y)) := by
  have hbst : bstOk rt = true := hv.2.2.2.2
  obtain ⟨c0, a, l, r, hnode, hbstn⟩ := mem_keyList_of_split hbst (by simpa [keysT] using hk)
  obtain ⟨hdec, hL, hR, _⟩ := findZip_split k hbst
  rw [hnode] at hdec
  obtain ⟨n₀, hb⟩ := validT_bal hv
  obtain ⟨c', n', hfocus, hpath⟩ := findZip_pathBal k rt [] hb .root
  rw [hnode] at hfocus
  have hcc : c' = c0 := by cases hfocus <;> rfl
  subst hcc
  by_cases h2 : l.isNil = false ∧ r.isNil = false
  · -- two real children: excise the in-order successor
    obtain ⟨rc, rk, rv, rr, hls2, hrk⟩ := leftSpine_real r h2.2 []
    obtain ⟨cr2, nr2, balr, pb⟩ :
        ∃ c2 n2, Bal r c2 n2 ∧
          PathBal n₀ ({ dir := Dir.right, color := c', key := rk, attr := a, other := l } :: (findZip k rt []).1) c2 n2 := by
      cases hfocus with
      | red hl' hr' => exact ⟨.black, n', hr', .redF rfl hl' hpath⟩
      | black hl' hr' => exact ⟨_, _, hr', .blackF rfl hl' hpath⟩
    obtain ⟨cs, ns, hbls, hpbls⟩ := leftSpine_pathBal r _ balr pb
    rw [leftSpine_shift r _] at hbls hpbls
    dsimp only at hbls hpbls
    simp only [hls2] at hbls
    have hcs : cs = rc := by cases hbls <;> rfl
    subst hcs
    have hior : inorder r = (rk, rv) :: (inorder rr ++ pRight (leftSpine r []).1) := by
      have hx : inorder r =
          inorder (plug (leftSpine r []).1 (leftSpine r []).2) := by
        rw [leftSpine_plug r []]
        rfl
      rw [hx, inorder_plug, hls2, leftSpine_pLeft]
      simp [inorder]
    have hdecX : inorder rt =
        (pLeft (findZip k rt []).1 ++ inorder l) ++ (k, a) ::
          (minKeyD r, rv) :: (inorder rr ++ pRight (leftSpine r []).1 ++
            pRight (findZip k rt []).1) := by
      rw [hdec]
      simp only [inorder]
      rw [hior, ← hrk]
      simp
    have hioT : inorder (plug ((leftSpine r []).1 ++
        { dir := Dir.right, color := c', key := rk, attr := a, other := l } ::
          (findZip k rt []).1) rr) =
        (pLeft (findZip k rt []).1 ++ inorder l) ++ (minKeyD r, a) ::
          (inorder rr ++ pRight (leftSpine r []).1 ++ pRight (findZip k rt []).1) := by
      rw [inorder_plug, pLeft_append, pRight_append, leftSpine_pLeft, ← hrk]
      simp [pLeft, pRight, inorder]
    have hsorted2 : List.Pairwise (· < ·)
        (((pLeft (findZip k rt []).1 ++ inorder l) ++ (minKeyD r, a) ::
          (inorder rr ++ pRight (leftSpine r []).1 ++
            pRight (findZip k rt []).1)).map Prod.fst) := by
      have hs : List.Pairwise (· < ·) ((inorder rt).map Prod.fst) := validT_bst hv
      rw [hdecX] at hs
      refine hs.sublist ?_
      simp only [List.map_append, List.map_cons]
      refine List.Sublist.append_left ?_ _
      exact List.Sublist.cons _ (List.Sublist.refl _)
    rcases cs with _ | _
    · -- RED replacer: its promoted child is a nil terminator; no fixup
      have hrr0 : rr = .nil ∧ ns = 0 := by
        cases hbls with
        | red hnl hnr =>
          cases hnl
          cases hnr
          exact ⟨rfl, rfl⟩
      obtain ⟨hrrnil, hns0⟩ := hrr0
      subst hrrnil; subst hns0
      have hfill := (hpbls.toBlack).fill (.nil)
      refine ⟨some (plug ((leftSpine r []).1 ++
        { dir := Dir.right, color := c', key := rk, attr := a, other := l } ::
          (findZip k rt []).1) .nil), c', a, l, r, hnode, ?_, ?_, ?_⟩
      · simp [delete, find, hnode, h2.1, h2.2, hls2]
      · refine validT_of_bal hfill ?_ ?_
        · rw [show keyList (plug _ .nil) = (inorder (plug ((leftSpine r []).1 ++
            { dir := Dir.right, color := c', key := rk, attr := a, other := l } ::
              (findZip k rt []).1) .nil)).map Prod.fst from rfl, hioT]
          simpa [inorder] using hsorted2
        · rcases hx : (leftSpine r []).1 with _ | ⟨f, fs⟩
          · simp only [hx, List.nil_append]
            exact inorder_ne_nil_isNil (plug_cons_inorder_ne _ _ _)
          · simp only [hx, List.cons_append]
            exact inorder_ne_nil_isNil (plug_cons_inorder_ne _ _ _)
      · refine Or.inr ⟨h2.1, h2.2, _, _, rv, hdecX, ?_⟩
        simpa [inorderT, inorder] using hioT
    · -- BLACK replacer: run the delete fixup on the promoted child
      obtain ⟨crr, hrr, hns⟩ : ∃ crr, Bal rr crr 0 ∧ ns = 1 := by
        cases hbls with
        | black hnl hnr =>
          cases hnl
          exact ⟨_, hnr, rfl⟩
      subst hns
      obtain ⟨m, hm⟩ := deleteFixupGo_bal
        (2 * ((leftSpine r []).1 ++
          { dir := Dir.right, color := c', key := rk, attr := a, other := l } ::
            (findZip k rt []).1).length + 2)
        ((leftSpine r []).1 ++
          { dir := Dir.right, color := c', key := rk, attr := a, other := l } ::
            (findZip k rt []).1)
        rr (by omega) hpbls (fixFocus_of_bal hrr)
      refine ⟨some (deleteFixup ((leftSpine r []).1 ++
        { dir := Dir.right, color := c', key := rk, attr := a, other := l } ::
          (findZip k rt []).1) rr), c', a, l, r, hnode, ?_, ?_, ?_⟩
      · simp [delete, find, hnode, h2.1, h2.2, hls2]
      · have hioT' : inorder (deleteFixup ((leftSpine r []).1 ++
            { dir := Dir.right, color := c', key := rk, attr := a, other := l } ::
              (findZip k rt []).1) rr) =
            (pLeft (findZip k rt []).1 ++ inorder l) ++ (minKeyD r, a) ::
              (inorder rr ++ pRight (leftSpine r []).1 ++ pRight (findZip k rt []).1) := by
          rw [deleteFixup, inorder_deleteFixupGo, hioT]
        refine validT_of_bal hm ?_ ?_
        · rw [show keyList (deleteFixup _ rr) = (inorder (deleteFixup ((leftSpine r []).1 ++
            { dir := Dir.right, color := c', key := rk, attr := a, other := l } ::
              (findZip k rt []).1) rr)).map Prod.fst from rfl, hioT']
          exact hsorted2
        · refine inorder_ne_nil_isNil ?_
          rw [hioT']
          simp
      · refine Or.inr ⟨h2.1, h2.2, _, _, rv, hdecX, ?_⟩
        simp only [inorderT]
        rw [deleteFixup, inorder_deleteFixupGo, hioT]
  · -- at most one real child: splice the only (possibly nil) child
    rcases hp : (findZip k rt []).1 with _ | ⟨pf, rest⟩
    · -- the focused node is the root
      rw [hp] at hpath hdec
      have hcb : c' = .black := by cases hpath; rfl
      subst hcb
      have hn0 : n' = n₀ := by cases hpath; rfl
      subst hn0
      simp only [pLeft, pRight, List.nil_append, List.append_nil] at hdec
      cases hfocus with
      | black hl' hr' =>
        by_cases hl0 : l.isNil = false
        · -- only the LEFT child is real (it is a RED leaf)
          have hrnil : r = .nil := by
            rcases hrn : r.isNil with _ | _
            · exact absurd ⟨hl0, hrn⟩ h2
            · exact isNil_iff.1 hrn
          subst hrnil
          rename_i cl9 cr9 m
          have hm0 : m = 0 := by cases hr'; rfl
          subst hm0
          obtain ⟨mm, hml⟩ := hl'.setBlack_any
          refine ⟨some (setColor l .black), .black, a, l, .nil, hnode, ?_, ?_, ?_⟩
          · simp [delete, find, hnode, hl0, hp,
              show ¬(l.isNil = false ∧ RBNode.nil.isNil = false) from h2]
          · refine validT_of_bal hml ?_ ?_
            · have hs : List.Pairwise (· < ·) ((inorder rt).map Prod.fst) := validT_bst hv
              rw [hdec] at hs
              rw [show keyList (setColor l .black) =
                (inorder (setColor l .black)).map Prod.fst from rfl, inorder_setColor]
              refine hs.sublist (List.Sublist.map Prod.fst ?_)
              simp only [inorder]
              exact List.sublist_append_left _ _
            · rw [isNil_setColor]
              exact hl0
          · refine Or.inl ⟨h2, inorder l, [], by simpa [inorder] using hdec, ?_⟩
            simp [inorderT, inorder_setColor]
        · -- the LEFT child is nil: splice the RIGHT child
          have hlnil : l = .nil := by
            rcases hln : l.isNil with _ | _
            · exact absurd hln hl0
            · exact isNil_iff.1 hln
          subst hlnil
          rename_i cl9 cr9 m
          have hm0 : m = 0 := by cases hl'; rfl
          subst hm0
          by_cases hr0 : r.isNil = false
          · obtain ⟨mm, hmr⟩ := hr'.setBlack_any
            refine ⟨some (setColor r .black), .black, a, .nil, r, hnode, ?_, ?_, ?_⟩
            · have : ¬(RBNode.nil.isNil = false) := by simp [isNil]
              simp [delete, find, hnode, hp, hr0, this]
            · refine validT_of_bal hmr ?_ ?_
              · have hs : List.Pairwise (· < ·) ((inorder rt).map Prod.fst) := validT_bst hv
                rw [hdec] at hs
                rw [show keyList (setColor r .black) =
                  (inorder (setColor r .black)).map Prod.fst from rfl, inorder_setColor]
                refine hs.sublist (List.Sublist.map Prod.fst ?_)
                simp only [inorder, List.nil_append]
                exact List.sublist_cons_self _ _
              · rw [isNil_setColor]
                exact hr0
            · refine Or.inl ⟨h2, [], inorder r, by simpa [inorder] using hdec, ?_⟩
              simp [inorderT, inorder_setColor]
          · -- both children nil: the tree becomes empty
            have hrnil : r = .nil := by
              rcases hrn : r.isNil with _ | _
              · exact absurd hrn hr0
              · exact isNil_iff.1 hrn
            subst hrnil
            refine ⟨none, .black, a, .nil, .nil, hnode, ?_, trivial, ?_⟩
            · have : ¬(RBNode.nil.isNil = false) := by simp [isNil]
              simp [delete, find, hnode, hp, this]
            · exact Or.inl ⟨h2, [], [], by simpa [inorder] using hdec, by simp [inorderT]⟩
    · -- the focused node is below the root
      rw [hp] at hpath hdec
      cases hfocus with
      | red hl' hr' =>
        -- a RED node without two real children is a RED leaf
        have hlnil : l = .nil := by
          by_contra hx
          have hl0 : l.isNil = false := by
            rcases hln : l.isNil with _ | _
            · rfl
            · exact absurd (isNil_iff.1 hln) hx
          have hrnil : r = .nil := by
            rcases hrn : r.isNil with _ | _
            · exact absurd ⟨hl0, hrn⟩ h2
            · exact isNil_iff.1 hrn
          subst hrnil
          cases hr'
          cases hl' with
          | nil => exact hx rfl
        subst hlnil
        have hn'0 : n' = 0 := by cases hl'; rfl
        subst hn'0
        have hrnil : r = .nil := by
          cases hr' with
          | nil => rfl
        subst hrnil
        have hfill := ((hpath.toBlack).fill (.nil))
        refine ⟨some (plug (pf :: rest) .nil), .red, a, .nil, .nil, hnode, ?_, ?_, ?_⟩
        · have : ¬(RBNode.nil.isNil = false) := by simp [isNil]
          simp [delete, find, hnode, hp, this]
        · refine validT_of_bal hfill ?_
            (inorder_ne_nil_isNil (plug_cons_inorder_ne _ _ _))
          have hs : List.Pairwise (· < ·) ((inorder rt).map Prod.fst) := validT_bst hv
          rw [hdec] at hs
          rw [show keyList (plug (pf :: rest) .nil) =
            (inorder (plug (pf :: rest) .nil)).map Prod.fst from rfl, inorder_plug]
          refine hs.sublist (List.Sublist.map Prod.fst ?_)
          refine List.Sublist.append ?_ (List.Sublist.refl _)
          refine List.Sublist.append (List.Sublist.refl _) ?_
          simp [inorder]
        · refine Or.inl ⟨h2, pLeft (pf :: rest), pRight (pf :: rest),
            by simpa [inorder] using hdec, ?_⟩
          simp [inorderT, inorder_plug, inorder]
      | black hl' hr' =>
        rename_i cl9 cr9 m
        by_cases hl0 : l.isNil = false
        · -- splice the real LEFT child and fix up
          have hrnil : r = .nil := by
            rcases hrn : r.isNil with _ | _
            · exact absurd ⟨hl0, hrn⟩ h2
            · exact isNil_iff.1 hrn
          subst hrnil
          have hm0 : m = 0 := by cases hr'; rfl
          subst hm0
          obtain ⟨mm, hmfix⟩ := deleteFixupGo_bal (2 * (pf :: rest).length + 2)
            (pf :: rest) l (by simp; omega) hpath (fixFocus_of_bal hl')
          have hioT' : inorder (deleteFixup (pf :: rest) l) =
              pLeft (pf :: rest) ++ inorder l ++ pRight (pf :: rest) := by
            rw [deleteFixup, inorder_deleteFixupGo, inorder_plug]
          refine ⟨some (deleteFixup (pf :: rest) l), .black, a, l, .nil, hnode, ?_, ?_, ?_⟩
          · simp [delete, find, hnode, hp, hl0,
              show ¬(l.isNil = false ∧ RBNode.nil.isNil = false) from h2]
          · refine validT_of_bal hmfix ?_ ?_
            · have hs : List.Pairwise (· < ·) ((inorder rt).map Prod.fst) := validT_bst hv
              rw [hdec] at hs
              rw [show keyList (deleteFixup (pf :: rest) l) =
                (inorder (deleteFixup (pf :: rest) l)).map Prod.fst from rfl, hioT']
              refine hs.sublist (List.Sublist.map Prod.fst ?_)
              refine List.Sublist.append ?_ (List.Sublist.refl _)
              refine List.Sublist.append (List.Sublist.refl _) ?_
              simp only [inorder]
              exact List.sublist_append_left _ _
            · refine inorder_ne_nil_isNil ?_
              rw [deleteFixup, inorder_deleteFixupGo]
              exact plug_cons_inorder_ne _ _ _
          · refine Or.inl ⟨h2, pLeft (pf :: rest) ++ inorder l, pRight (pf :: rest),
              by simpa [inorder] using hdec, ?_⟩
            simp [inorderT, hioT']
        · -- splice the (possibly nil) RIGHT child and fix up
          have hlnil : l = .nil := by
            rcases hln : l.isNil with _ | _
            · exact absurd hln hl0
            · exact isNil_iff.1 hln
          subst hlnil
          have hm0 : m = 0 := by cases hl'; rfl
          subst hm0
          obtain ⟨mm, hmfix⟩ := deleteFixupGo_bal (2 * (pf :: rest).length + 2)
            (pf :: rest) r (by simp; omega) hpath (fixFocus_of_bal hr')
          have hioT' : inorder (deleteFixup (pf :: rest) r) =
              pLeft (pf :: rest) ++ inorder r ++ pRight (pf :: rest) := by
            rw [deleteFixup, inorder_deleteFixupGo, inorder_plug]
          refine ⟨some (deleteFixup (pf :: rest) r), .black, a, .nil, r, hnode, ?_, ?_, ?_⟩
          · have : ¬(RBNode.nil.isNil = false) := by simp [isNil]
            simp [delete, find, hnode, hp, this]
          · refine validT_of_bal hmfix ?_ ?_
            · have hs : List.Pairwise (· < ·) ((inorder rt).map Prod.fst) := validT_bst hv
              rw [hdec] at hs
              rw [show keyList (deleteFixup (pf :: rest) r) =
                (inorder (deleteFixup (pf :: rest) r)).map Prod.fst from rfl, hioT']
              refine hs.sublist (List.Sublist.map Prod.fst ?_)
              refine List.Sublist.append ?_ (List.Sublist.refl _)
              refine List.Sublist.append (List.Sublist.refl _) ?_
              simp only [inorder, List.nil_append]
              exact List.sublist_cons_self _ _
            · refine inorder_ne_nil_isNil ?_
              rw [deleteFixup, inorder_deleteFixupGo]
              exact plug_cons_inorder_ne _ _ _
          · refine Or.inl ⟨h2, pLeft (pf :: rest), inorder r ++ pRight (pf :: rest),
              by simpa [inorder] using hdec, ?_⟩
            simp [inorderT, hioT']

/-! ## Validity is preserved by every public mutation -/

theorem delete_notfound {rt : RBNode} {k : Int} (hbst : bstOk rt = true)
    (hk : k ∉ keysT (some rt)) :
    delete (some rt) (.int k) = .error .lookupError := by
  have hnil := not_mem_keyList_of_split hbst (by simpa [keysT] using hk)
  simp [delete, find, hnil]

theorem validT_single (k : Int) (v : PyVal) :
    validT (some (setColor (newNode k v) .black)) :=
  ⟨rfl, rfl, rfl, rfl, rfl⟩

theorem applyOp_valid {t : Option RBNode} (hv : validT t) (op : Op) :
    validT (applyOp t op) := by
  cases op with
  | insOp k v =>
    cases t with
    | none => simpa [applyOp, insert] using validT_single k v
    | some rt =>
      by_cases hk : k ∈ keysT (some rt)
      · have hdup := insert_dup v hv.2.2.2.2 hk
        simpa [applyOp, hdup] using hv
      · obtain ⟨rt', A, B, hins, hval, _⟩ := insert_ok v hv hk
        simpa [applyOp, hins] using hval
  | delOp k =>
    cases t with
    | none => simpa [applyOp, delete, find] using hv
    | some rt =>
      by_cases hk : k ∈ keysT (some rt)
      · obtain ⟨t', c', a, l, r, _, hdel, hval, _⟩ := delete_ok hv hk
        simpa [applyOp, hdel] using hval
      · have hnf := delete_notfound hv.2.2.2.2 hk
        simpa [applyOp, hnf] using hv

theorem foldl_applyOp_valid (ops : List Op) :
    ∀ t : Option RBNode, validT t → validT (ops.foldl applyOp t) := by
  induction ops with
  | nil => intro t ht; simpa using ht
  | cons op ops ih =>
    intro t ht
    simpa [List.foldl] using ih _ (applyOp_valid ht op)

theorem runOps_valid (ops : List Op) : validT (runOps ops) :=
  foldl_applyOp_valid ops none trivial

/-! ## The height bound -/

theorem length_inorder : ∀ t : RBNode, (inorder t).length = size t
  | .nil => rfl
  | .node c k a l r => by
    simp [inorder, size, length_inorder l, length_inorder r]
    omega

theorem bal_height_pair {t : RBNode} {c : Color} {n : Nat} (h : Bal t c n) :
    height t ≤ 2 * n + 1 ∧ (c = .black → height t ≤ 2 * n) := by
  induction h with
  | nil => exact ⟨by simp [height], fun _ => by simp [height]⟩
  | red hl hr ihl ihr =>
    have h1 := ihl.2 rfl
    have h2 := ihr.2 rfl
    refine ⟨?_, fun hc => by cases hc⟩
    simp only [height]
    omega
  | black hl hr ihl ihr =>
    have h1 := ihl.1
    have h2 := ihr.1
    constructor
    · simp only [height]
      omega
    · intro _
      simp only [height]
      omega

theorem Bal.size_ge {t : RBNode} {c : Color} {n : Nat} (h : Bal t c n) :
    2 ^ n ≤ size t + 1 := by
  induction h with
  | nil => simp [size]
  | red hl hr ihl ihr =>
    simp only [size]
    omega
  | black hl hr ihl ihr =>
    simp only [size]
    rw [pow_succ]
    omega

theorem bal_height_log {rt : RBNode} {n : Nat} (h : Bal rt .black n) :
    height rt ≤ 2 * Nat.log2 (size rt + 1) := by
  have h1 : height rt ≤ 2 * n := (bal_height_pair h).2 rfl
  have h2 : 2 ^ n ≤ size rt + 1 := h.size_ge
  have h3 : n ≤ Nat.log2 (size rt + 1) := (Nat.le_log2 (by omega)).2 h2
  omega

theorem sizeT_insert {t : Option RBNode} (k : Int) (v : PyVal) (hv : validT t) :
    sizeT (applyOp t (.insOp k v)) ≤ sizeT t + 1 := by
  cases t with
  | none => simp [applyOp, insert, sizeT, size, newNode, setColor]
  | some rt =>
    by_cases hk : k ∈ keysT (some rt)
    · simp [applyOp, insert_dup v hv.2.2.2.2 hk, sizeT]
    · obtain ⟨rt', A, B, hins, hval, hio, hio', _⟩ := insert_ok v hv hk
      have hlen : (inorder rt').length = (inorder rt).length + 1 := by
        rw [hio, hio']
        simp only [List.length_append, List.length_cons]
        omega
      have h1 := length_inorder rt'
      have h2 := length_inorder rt
      simp only [applyOp, hins, sizeT]
      omega

theorem sizeT_insList : ∀ (ps : List (Int × PyVal)) (t : Option RBNode), validT t →
    sizeT ((insList ps).foldl applyOp t) ≤ sizeT t + ps.length := by
  intro ps
  induction ps with
  | nil =>
    intro t ht
    simp [insList]
  | cons p ps ih =>
    intro t ht
    have h1 := sizeT_insert p.1 p.2 ht
    have h2 := ih (applyOp t (.insOp p.1 p.2)) (applyOp_valid ht _)
    simp only [insList, List.map_cons, List.foldl_cons, List.length_cons] at h2 ⊢
    omega

/-! ## Reading attributes back, and uniqueness of sorted splits -/

theorem sorted_split_unique :
    ∀ (A : List (Int × Option PyVal)) {X B Y : List (Int × Option PyVal)}
      {k : Int} {a b : Option PyVal},
      List.Pairwise (· < ·) ((A ++ (k, a) :: B).map Prod.fst) →
      A ++ (k, a) :: B = X ++ (k, b) :: Y →
      A = X ∧ a = b ∧ B = Y := by
  intro A
  induction A with
  | nil =>
    intro X B Y k a b hs heq
    cases X with
    | nil =>
      simp only [List.nil_append] at heq
      injection heq with h1 h2
      injection h1 with hka hab
      exact ⟨rfl, hab, h2⟩
    | cons x X9 =>
      simp only [List.nil_append, List.cons_append] at heq
      injection heq with h1 h2
      exfalso
      have hk : k ∈ (X9 ++ (k, b) :: Y).map Prod.fst := by simp
      rw [← h2] at hk
      simp only [List.nil_append, List.map_cons, List.pairwise_cons] at hs
      exact lt_irrefl k (hs.1 k hk)
  | cons p A9 ih =>
    intro X B Y k a b hs heq
    cases X with
    | nil =>
      simp only [List.cons_append, List.nil_append] at heq
      injection heq with h1 h2
      exfalso
      subst h1
      simp only [List.cons_append, List.map_cons, List.pairwise_cons] at hs
      exact lt_irrefl k (hs.1 k (by simp))
    | cons x X9 =>
      simp only [List.cons_append] at heq
      injection heq with h1 h2
      subst h1
      have hs9 : List.Pairwise (· < ·) ((A9 ++ (k, a) :: B).map Prod.fst) := by
        simp only [List.cons_append, List.map_cons, List.pairwise_cons] at hs
        exact hs.2
      obtain ⟨hAX, hab, hBY⟩ := ih hs9 h2
      exact ⟨by rw [hAX], hab, hBY⟩

theorem getAttrGo_mem : ∀ {t : RBNode} {k : Int} {a : Option PyVal},
    bstOk t = true → (k, a) ∈ inorder t → getAttrGo t k = some a := by
  intro t
  induction t with
  | nil =>
    intro k a _ hm
    simp [inorder] at hm
  | node c key a9 l r ihl ihr =>
    intro k a hbst hm
    simp only [bstOk, Bool.and_eq_true] at hbst
    obtain ⟨⟨⟨hall, harr⟩, hbl⟩, hbr⟩ := hbst
    simp only [inorder, List.mem_append, List.mem_cons] at hm
    rcases hm with hm | hm | hm
    · have hk : k < key := by
        have := (allKeys_iff.1 hall) k
          (List.mem_map_of_mem Prod.fst hm)
        simpa using this
      rw [show getAttrGo (RBNode.node c key a9 l r) k = getAttrGo l k from by
        simp [getAttrGo, hk]]
      exact ihl hbl hm
    · injection hm with h1 h2
      subst h1
      subst h2
      simp [getAttrGo]
    · have hk : key < k := by
        have := (allKeys_iff.1 harr) k
          (List.mem_map_of_mem Prod.fst hm)
        simpa using this
      rw [show getAttrGo (RBNode.node c key a9 l r) k = getAttrGo r k from by
        simp [getAttrGo, hk, not_lt_of_gt hk]]
      exact ihr hbr hm

/-! ## The traverse loop visits a subtree like the recursive walk -/

theorem steps_node (c : Color) (k : Int) (a : Option PyVal) (l r : RBNode) :
    steps (RBNode.node c k a l r) =
      1 + (if l.isNil = false then steps l + 1 else 0) +
        (if r.isNil = false then steps r + 1 else 0) := rfl

theorem steps_le_size : ∀ t : RBNode, steps t ≤ 3 * size t
  | .nil => by simp [steps, size]
  | .node c k a l r => by
    have hl := steps_le_size l
    have hr := steps_le_size r
    have h1 : (if l.isNil = false then steps l + 1 else 0) ≤ steps l + 1 := by
      split <;> omega
    have h2 : (if r.isNil = false then steps r + 1 else 0) ≤ steps r + 1 := by
      split <;> omega
    rw [steps_node]
    simp only [size]
    omega

theorem subtreeAt_nil : ∀ p : List Dir, subtreeAt .nil p = .nil := by
  intro p
  cases p <;> rfl

theorem subtreeAt_id (t : RBNode) : subtreeAt t [] = t := by
  cases t <;> rfl

theorem subtreeAt_append : ∀ (p q : List Dir) (t : RBNode),
    subtreeAt t (p ++ q) = subtreeAt (subtreeAt t p) q := by
  intro p
  induction p with
  | nil =>
    intro q t
    rw [List.nil_append, subtreeAt_id]
  | cons d p ih =>
    intro q t
    cases t with
    | nil => simp [subtreeAt_nil]
    | node c k a l r =>
      cases d with
      | left =>
        show subtreeAt l (p ++ q) = subtreeAt (subtreeAt l p) q
        exact ih q l
      | right =>
        show subtreeAt r (p ++ q) = subtreeAt (subtreeAt r p) q
        exact ih q r

theorem parentO_concat (p : List Dir) (x : Dir) : parentO (p ++ [x]) = some p := by
  simp [parentO, List.dropLast_concat]

theorem isChildPath_concat (q : List Dir) (x : Dir) : isChildPath q (q ++ [x]) = true := by
  cases x <;> simp [isChildPath]

theorem isChildPath_up (p : List Dir) (x : Dir) : isChildPath (p ++ [x]) p = false := by
  simp only [isChildPath, Bool.or_eq_false_iff]
  constructor <;>
  · rw [beq_eq_false_iff_ne]
    intro h
    have hlen := congrArg List.length h
    simp only [List.length_append, List.length_cons, List.length_nil] at hlen
    omega

theorem sib_ne (p : List Dir) :
    some (p ++ [Dir.right]) ≠ some (p ++ [Dir.left]) := by
  intro h
  injection h with h2
  exact absurd (List.append_cancel_left h2) (by decide)

theorem travLoop_none (t : RBNode) (order : Order) :
    ∀ (fuel : Nat) (prev : Option (List Dir)) (d : Int),
      travLoop t order fuel none prev d = [] := by
  intro fuel prev d
  cases fuel <;> rfl

theorem travLoop_succ (t : RBNode) (order : Order) (fuel : Nat) (p : List Dir)
    (prev : Option (List Dir)) (depth : Int) :
    travLoop t order (fuel + 1) (some p) prev depth =
      (if arrivedB prev p = true then
        (if order = .pre then [(subtreeAt t p, depth + 1)] else []) ++
        (if (getChild (subtreeAt t p) .left).isNil = false then
          travLoop t order fuel (some (p ++ [Dir.left])) (some p) (depth + 1)
        else
          (if order = .ino then [(subtreeAt t p, depth + 1)] else []) ++
          (if (getChild (subtreeAt t p) .right).isNil = false then
            travLoop t order fuel (some (p ++ [Dir.right])) (some p) (depth + 1)
          else
            (if order = .post then [(subtreeAt t p, depth + 1)] else []) ++
            travLoop t order fuel (parentO p) (some p) (depth + 1)))
      else if prev = some (p ++ [Dir.left]) then
        (if order = .ino then [(subtreeAt t p, depth - 1)] else []) ++
        (if (getChild (subtreeAt t p) .right).isNil = false then
          travLoop t order fuel (some (p ++ [Dir.right])) (some p) (depth - 1)
        else
          (if order = .post then [(subtreeAt t p, depth - 1)] else []) ++
          travLoop t order fuel (parentO p) (some p) (depth - 1))
      else if prev = some (p ++ [Dir.right]) then
        (if order = .post then [(subtreeAt t p, depth - 1)] else []) ++
        travLoop t order fuel (parentO p) (some p) (depth - 1)
      else []) := by
  cases prev with
  | none => rfl
  | some q => rfl

theorem travLoop_enter (t : RBNode) (order : Order) :
    ∀ (s : RBNode), s.isNil = false →
      ∀ (p : List Dir) (prev : Option (List Dir)) (fuel : Nat) (d : Int),
      subtreeAt t p = s →
      arrivedB prev p = true →
      travLoop t order (steps s + fuel) (some p) prev d =
        visits order s (d + 1) ++ travLoop t order fuel (parentO p) (some p) (d + 1) := by
  intro s
  induction s with
  | nil =>
    intro h
    simp at h
  | node c k a l r ihl ihr =>
    intro _ p prev fuel d hsub harr
    have hsubl : subtreeAt t (p ++ [Dir.left]) = l := by
      rw [subtreeAt_append, hsub]
      simp only [subtreeAt]
    have hsubr : subtreeAt t (p ++ [Dir.right]) = r := by
      rw [subtreeAt_append, hsub]
      simp only [subtreeAt]
    cases hl9 : l.isNil with
    | false =>
      cases hr9 : r.isNil with
      | false =>
        -- both children real: four loop segments
        rw [show steps (RBNode.node c k a l r) + fuel
            = (steps l + (steps r + fuel + 2)) + 1 from by
          rw [steps_node, if_pos hl9, if_pos hr9]
          omega]
        rw [travLoop_succ t order (steps l + (steps r + fuel + 2)) p prev d]
        rw [harr, if_pos (rfl : (true : Bool) = true), hsub]
        simp only [getChild]
        rw [if_pos hl9]
        rw [ihl hl9 (p ++ [Dir.left]) (some p) (steps r + fuel + 2) (d + 1) hsubl
          (isChildPath_concat p Dir.left)]
        rw [parentO_concat p Dir.left]
        rw [show steps r + fuel + 2 = (steps r + (fuel + 1)) + 1 from by omega]
        rw [travLoop_succ t order (steps r + (fuel + 1)) p (some (p ++ [Dir.left]))
          (d + 1 + 1)]
        rw [show arrivedB (some (p ++ [Dir.left])) p = false from isChildPath_up p Dir.left]
        rw [if_neg (show ¬((false : Bool) = true) from by simp),
          if_pos (rfl : some (p ++ [Dir.left]) = some (p ++ [Dir.left])), hsub]
        simp only [getChild]
        rw [show d + 1 + 1 - 1 = d + 1 from by omega]
        rw [if_pos hr9]
        rw [ihr hr9 (p ++ [Dir.right]) (some p) (fuel + 1) (d + 1) hsubr
          (isChildPath_concat p Dir.right)]
        rw [parentO_concat p Dir.right]
        rw [travLoop_succ t order fuel p (some (p ++ [Dir.right])) (d + 1 + 1)]
        rw [show arrivedB (some (p ++ [Dir.right])) p = false from
          isChildPath_up p Dir.right]
        rw [if_neg (show ¬((false : Bool) = true) from by simp), if_neg (sib_ne p),
          if_pos (rfl : some (p ++ [Dir.right]) = some (p ++ [Dir.right]))]
        rw [show d + 1 + 1 - 1 = d + 1 from by omega]
        rw [hsub]
        simp only [visits, List.append_assoc]
      | true =>
        -- only the LEFT child is real
        have hrnil : r = .nil := isNil_iff.1 hr9
        subst hrnil
        rw [show steps (RBNode.node c k a l .nil) + fuel
            = (steps l + (fuel + 1)) + 1 from by
          rw [steps_node, if_pos hl9, if_neg (show ¬((RBNode.nil).isNil = false) from by simp)]
          omega]
        rw [travLoop_succ t order (steps l + (fuel + 1)) p prev d]
        rw [harr, if_pos (rfl : (true : Bool) = true), hsub]
        simp only [getChild]
        rw [if_pos hl9]
        rw [ihl hl9 (p ++ [Dir.left]) (some p) (fuel + 1) (d + 1) hsubl
          (isChildPath_concat p Dir.left)]
        rw [parentO_concat p Dir.left]
        rw [travLoop_succ t order fuel p (some (p ++ [Dir.left])) (d + 1 + 1)]
        rw [show arrivedB (some (p ++ [Dir.left])) p = false from isChildPath_up p Dir.left]
        rw [if_neg (show ¬((false : Bool) = true) from by simp),
          if_pos (rfl : some (p ++ [Dir.left]) = some (p ++ [Dir.left])), hsub]
        simp only [getChild]
        rw [show d + 1 + 1 - 1 = d + 1 from by omega]
        rw [if_neg (show ¬((RBNode.nil).isNil = false) from by simp)]
        simp only [visits, List.append_assoc, List.append_nil, List.nil_append]
    | true =>
      have hlnil : l = .nil := isNil_iff.1 hl9
      subst hlnil
      cases hr9 : r.isNil with
      | false =>
        -- only the RIGHT child is real
        rw [show steps (RBNode.node c k a .nil r) + fuel
            = (steps r + (fuel + 1)) + 1 from by
          rw [steps_node, if_neg (show ¬((RBNode.nil).isNil = false) from by simp), if_pos hr9]
          omega]
        rw [travLoop_succ t order (steps r + (fuel + 1)) p prev d]
        rw [harr, if_pos (rfl : (true : Bool) = true), hsub]
        simp only [getChild]
        rw [if_neg (show ¬((RBNode.nil).isNil = false) from by simp)]
        rw [if_pos hr9]
        rw [ihr hr9 (p ++ [Dir.right]) (some p) (fuel + 1) (d + 1) hsubr
          (isChildPath_concat p Dir.right)]
        rw [parentO_concat p Dir.right]
        rw [travLoop_succ t order fuel p (some (p ++ [Dir.right])) (d + 1 + 1)]
        rw [show arrivedB (some (p ++ [Dir.right])) p = false from
          isChildPath_up p Dir.right]
        rw [if_neg (show ¬((false : Bool) = true) from by simp), if_neg (sib_ne p),
          if_pos (rfl : some (p ++ [Dir.right]) = some (p ++ [Dir.right]))]
        rw [show d + 1 + 1 - 1 = d + 1 from by omega]
        rw [hsub]
        simp only [visits, List.append_assoc, List.append_nil, List.nil_append]
      | true =>
        -- a leaf: a single loop iteration
        have hrnil : r = .nil := isNil_iff.1 hr9
        subst hrnil
        rw [show steps (RBNode.node c k a .nil .nil) + fuel = fuel + 1 from by
          rw [steps_node, if_neg (show ¬((RBNode.nil).isNil = false) from by simp)]
          omega]
        rw [travLoop_succ t order fuel p prev d]
        rw [harr, if_pos (rfl : (true : Bool) = true), hsub]
        simp only [getChild]
        rw [if_neg (show ¬((RBNode.nil).isNil = false) from by simp), if_neg (show ¬((RBNode.nil).isNil = false) from by simp)]
        simp only [visits, List.append_assoc, List.append_nil, List.nil_append]

theorem traverse_visits (root : RBNode) (order : Order) (hroot : root.isNil = false) :
    traverse (some root) order = visits order root 1 := by
  have h := travLoop_enter root order root hroot [] none (3 * size root + 2 - steps root)
    0 (subtreeAt_id root) rfl
  have hfuel : steps root + (3 * size root + 2 - steps root) = 3 * size root + 2 := by
    have := steps_le_size root
    omega
  simp only [traverse]
  rw [← hfuel, h]
  rw [show parentO [] = none from rfl]
  rw [travLoop_none]
  simp

theorem visits_ino_keys : ∀ (s : RBNode) (d : Int),
    (visits .ino s d).map (fun nd => keyD nd.1) = keyList s
  | .nil, d => by simp [visits, keyList, inorder]
  | .node c k a l r, d => by
    simp [visits, visits_ino_keys l (d + 1), visits_ino_keys r (d + 1),
      show keyD (RBNode.node c k a l r) = k from rfl]

theorem visits_ino_length (s : RBNode) (d : Int) : (visits .ino s d).length = size s := by
  have h := congrArg List.length (visits_ino_keys s d)
  simpa [keyList, length_inorder] using h

/-! ## Remaining helper lemmas -/

theorem boundWalk_nil : ∀ (t : RBNode) (d : Dir), boundWalk t d = .nil
  | .nil, .left => rfl
  | .nil, .right => rfl
  | .node _ _ _ l _, .left => boundWalk_nil l .left
  | .node _ _ _ _ r, .right => boundWalk_nil r .right

theorem keysT_eq_inorderT (t : Option RBNode) : keysT t = (inorderT t).map Prod.fst := by
  cases t <;> rfl

theorem update_found {rt : RBNode} {k : Int} (w : PyVal) (hbst : bstOk rt = true)
    (hk : k ∈ keysT (some rt)) :
    ∃ rt2, update (some rt) (.int k) w = .ok (some rt2) ∧
      getAttr (some rt2) k = some (some w) := by
  obtain ⟨c, a, l, r, hnode, _⟩ := mem_keyList_of_split hbst (by simpa [keysT] using hk)
  obtain ⟨hdec, hL, hR, _⟩ := findZip_split k hbst
  rw [hnode] at hdec
  refine ⟨plug (findZip k rt []).1 (.node c k (some w) l r), ?_, ?_⟩
  · simp [update, find, hnode]
  · have hkeys : keyList (plug (findZip k rt []).1 (.node c k (some w) l r))
        = keyList rt := by
      rw [show keyList rt = (inorder rt).map Prod.fst from rfl, hdec]
      rw [show keyList (plug (findZip k rt []).1 (.node c k (some w) l r)) =
        (inorder (plug (findZip k rt []).1 (.node c k (some w) l r))).map Prod.fst from rfl,
        inorder_plug]
      simp [inorder]
    have hbst2 : bstOk (plug (findZip k rt []).1 (.node c k (some w) l r)) = true := by
      rw [bstOk_iff, hkeys]
      exact bstOk_iff.1 hbst
    have hmem : (k, some w) ∈ inorder (plug (findZip k rt []).1 (.node c k (some w) l r)) := by
      rw [inorder_plug]
      simp [inorder]
    simpa [getAttr] using getAttrGo_mem hbst2 hmem

/-! ## The claims -/

/-- C1: after every sequence of public mutations (inserts and deletes, in any
order, starting from the empty tree) the resulting tree satisfies the
red-black invariants: a real BLACK root when non-empty, no RED node with a
RED child, the same number of BLACK nodes on every path from a node down to
a nil terminator, and strict search order at every node (nil terminators are
BLACK, childless and keyless by construction of `RBNode`). -/
theorem runOps_preserves_invariants (ops : List Op) : validT (runOps ops) :=
  runOps_valid ops

/-- C2: on every tree built by a sequence of inserts and deletes, an IN_ORDER
traverse invokes the callback once per real node (the number of invocations
equals the tree size) and the keys of the visited nodes are exactly the
in-order key list, in strictly ascending order. -/
theorem traverse_inorder_ascending (ops : List Op) :
    ((traverse (runOps ops) .ino).map fun nd => keyD nd.1) = keysT (runOps ops) ∧
    List.Pairwise (· < ·) ((traverse (runOps ops) .ino).map fun nd => keyD nd.1) ∧
    (traverse (runOps ops) .ino).length = sizeT (runOps ops) := by
  have hv := runOps_valid ops
  rcases hrun : runOps ops with _ | rt
  · simp [traverse, keysT, sizeT]
  · rw [hrun] at hv
    have hroot : rt.isNil = false := hv.1
    rw [traverse_visits rt .ino hroot, visits_ino_keys]
    exact ⟨rfl, bstOk_iff.1 hv.2.2.2.2, visits_ino_length rt 1⟩

/-- C3: after any sequence of N insertions into an initially empty tree, the
height of the resulting tree (the maximum number of real nodes on a
root-to-nil path) is at most 2·log₂(N+1). -/
theorem insert_sequence_height_bound (ps : List (Int × PyVal)) :
    heightT (runOps (insList ps)) ≤ 2 * Nat.log2 (ps.length + 1) := by
  have hv := runOps_valid (insList ps)
  have hs : sizeT (runOps (insList ps)) ≤ ps.length := by
    have h := sizeT_insList ps none trivial
    simpa [runOps, sizeT] using h
  rcases hrun : runOps (insList ps) with _ | rt
  · simp [heightT]
  · rw [hrun] at hv hs
    obtain ⟨n, hb⟩ := validT_bal hv
    have h1 := bal_height_log hb
    have h2 : Nat.log2 (size rt + 1) ≤ Nat.log2 (ps.length + 1) := by
      rw [Nat.log2_eq_log_two, Nat.log2_eq_log_two]
      refine Nat.log_mono_right ?_
      have h3 : size rt ≤ ps.length := hs
      omega
    simp only [heightT]
    omega

/-- C4: inserting an absent key K into a valid tree and then immediately
deleting K yields a valid tree whose key set is exactly the key set before
the insert (the shape may differ). -/
theorem insert_then_delete_roundtrip {rt : RBNode} {k : Int} (v : PyVal)
    (hv : validT (some rt)) (hk : k ∉ keysT (some rt)) :
    ∃ rt', insert (some rt) (.int k) v = .ok (some rt') ∧
      ∃ t2, delete (some rt') (.int k) = .ok t2 ∧ validT t2 ∧
        keysT t2 = keysT (some rt) := by
  obtain ⟨rt', A, B, hins, hval, hioA, hioB, hA, hB⟩ := insert_ok v hv hk
  refine ⟨rt', hins, ?_⟩
  have hk2 : k ∈ keysT (some rt') := by
    simp [keysT, keyList, hioB]
  obtain ⟨t2, c', a, l, r, hnode, hdel, hval2, hsplit⟩ := delete_ok hval hk2
  refine ⟨t2, hdel, hval2, ?_⟩
  have hsort : List.Pairwise (· < ·) ((inorder rt').map Prod.fst) := validT_bst hval
  rw [hioB] at hsort
  rcases hsplit with ⟨h1c, X, Y, hio1, hio2⟩ | ⟨hl, hr, X, Y, rv2, hio1, hio2⟩
  · obtain ⟨hAX, hab, hBY⟩ := sorted_split_unique A hsort (hioB.symm.trans hio1)
    subst hAX
    subst hBY
    rw [keysT_eq_inorderT, hio2]
    simp [keysT, keyList, hioA]
  · obtain ⟨hAX, hab, hBY⟩ := sorted_split_unique A hsort (hioB.symm.trans hio1)
    subst hAX
    rw [keysT_eq_inorderT, hio2]
    simp [keysT, keyList, hioA, hBY]

/-- Witness for C4 at a concrete input: the one-node tree {1}, key 2. -/
theorem insert_then_delete_roundtrip_witness :
    validT (some (RBNode.node .black 1 none .nil .nil)) ∧
    (2 : Int) ∉ keysT (some (RBNode.node .black 1 none .nil .nil)) ∧
    (∃ rt', insert (some (RBNode.node .black 1 none .nil .nil)) (.int 2) (.int 7)
        = .ok (some rt') ∧
      ∃ t2, delete (some rt') (.int 2) = .ok t2 ∧ validT t2 ∧
        keysT t2 = keysT (some (RBNode.node .black 1 none .nil .nil))) :=
  ⟨⟨rfl, rfl, rfl, rfl, rfl⟩, by decide,
    insert_then_delete_roundtrip (.int 7) ⟨rfl, rfl, rfl, rfl, rfl⟩ (by decide)⟩

/-- C5: inserting a key that is already present fails with the duplicate-key
`LookupError` and (as run by the mutation loop of `main.py`, which catches
the exception) leaves the tree object completely unchanged, so every
traversal of it is unchanged too. -/
theorem insert_duplicate_unchanged {rt : RBNode} {k : Int} (v : PyVal)
    (hv : validT (some rt)) (hk : k ∈ keysT (some rt)) :
    insert (some rt) (.int k) v = .error .lookupError ∧
    applyOp (some rt) (.insOp k v) = some rt := by
  have h := insert_dup v hv.2.2.2.2 hk
  exact ⟨h, by simp [applyOp, h]⟩

/-- Witness for C5 at a concrete input: the one-node tree {5}, key 5. -/
theorem insert_duplicate_unchanged_witness :
    validT (some (RBNode.node .black 5 none .nil .nil)) ∧
    (5 : Int) ∈ keysT (some (RBNode.node .black 5 none .nil .nil)) ∧
    (insert (some (RBNode.node .black 5 none .nil .nil)) (.int 5) (.str "x")
        = .error .lookupError ∧
      applyOp (some (RBNode.node .black 5 none .nil .nil)) (.insOp 5 (.str "x"))
        = some (RBNode.node .black 5 none .nil .nil)) :=
  ⟨⟨rfl, rfl, rfl, rfl, rfl⟩, by decide,
    insert_duplicate_unchanged (.str "x") ⟨rfl, rfl, rfl, rfl, rfl⟩ (by decide)⟩

/-- C6, counterexample: in the tree {2:"a", 1:"x", 3:"b"}, deleting key 2
(whose node has two real children) leaves the original node with the
successor's key 3 but with its OWN payload "a"; the successor's payload "b"
is discarded, contradicting the claim that key and payload are both copied. -/
theorem delete_two_children_payload_cex :
    runOps [.insOp 2 (.str "a"), .insOp 1 (.str "x"), .insOp 3 (.str "b")] =
      some (.node .black 2 (some (.str "a"))
        (.node .red 1 (some (.str "x")) .nil .nil)
        (.node .red 3 (some (.str "b")) .nil .nil)) ∧
    delete (runOps [.insOp 2 (.str "a"), .insOp 1 (.str "x"), .insOp 3 (.str "b")])
        (.int 2) =
      .ok (some (.node .black 3 (some (.str "a"))
        (.node .red 1 (some (.str "x")) .nil .nil) .nil)) ∧
    (some (PyVal.str "a") : Option PyVal) ≠ some (PyVal.str "b") :=
  ⟨rfl, rfl, by decide⟩

/-- C6 (amended): when the node holding K has two real children, delete
excises the in-order successor (the leftmost node of the right subtree) and
copies only the successor's KEY into the original node; the original node
keeps its own payload, and the successor's payload is discarded. -/
theorem delete_two_children_key_copy {rt : RBNode} {k : Int}
    (hv : validT (some rt)) (hk : k ∈ keysT (some rt))
    {c : Color} {a : Option PyVal} {l r : RBNode}
    (hnode : (findZip k rt []).2 = .node c k a l r)
    (hl : l.isNil = false) (hr : r.isNil = false) :
    ∃ t2 X Y rv2, delete (some rt) (.int k) = .ok t2 ∧ validT t2 ∧
      inorder rt = X ++ (k, a) :: (minKeyD r, rv2) :: Y ∧
      inorderT t2 = X ++ (minKeyD r, a) :: Y := by
  obtain ⟨t2, c', a', l', r', hnode', hdel, hval2, hsplit⟩ := delete_ok hv hk
  rw [hnode] at hnode'
  injection hnode' with hc hk2 ha hl2 hr2
  subst hc
  subst ha
  subst hl2
  subst hr2
  rcases hsplit with ⟨h2, _⟩ | ⟨_, _, X, Y, rv2, hio1, hio2⟩
  · exact absurd ⟨hl, hr⟩ h2
  · exact ⟨t2, X, Y, rv2, hdel, hval2, hio1, hio2⟩

/-- Witness for the amended C6 at the counterexample tree {2:"a", 1:"x", 3:"b"}. -/
theorem delete_two_children_key_copy_witness :
    validT (some (RBNode.node .black 2 (some (.str "a"))
      (.node .red 1 (some (.str "x")) .nil .nil)
      (.node .red 3 (some (.str "b")) .nil .nil))) ∧
    (2 : Int) ∈ keysT (some (RBNode.node .black 2 (some (.str "a"))
      (.node .red 1 (some (.str "x")) .nil .nil)
      (.node .red 3 (some (.str "b")) .nil .nil))) ∧
    (findZip 2 (RBNode.node .black 2 (some (.str "a"))
      (.node .red 1 (some (.str "x")) .nil .nil)
      (.node .red 3 (some (.str "b")) .nil .nil)) []).2 =
      .node .black 2 (some (.str "a"))
        (.node .red 1 (some (.str "x")) .nil .nil)
        (.node .red 3 (some (.str "b")) .nil .nil) ∧
    (∃ t2 X Y rv2,
      delete (some (RBNode.node .black 2 (some (.str "a"))
        (.node .red 1 (some (.str "x")) .nil .nil)
        (.node .red 3 (some (.str "b")) .nil .nil))) (.int 2) = .ok t2 ∧ validT t2 ∧
      inorder (RBNode.node .black 2 (some (.str "a"))
        (.node .red 1 (some (.str "x")) .nil .nil)
        (.node .red 3 (some (.str "b")) .nil .nil)) =
        X ++ ((2 : Int), some (PyVal.str "a")) ::
          (minKeyD (.node .red 3 (some (.str "b")) .nil .nil), rv2) :: Y ∧
      inorderT t2 =
        X ++ (minKeyD (.node .red 3 (some (.str "b")) .nil .nil),
          some (PyVal.str "a")) :: Y) :=
  ⟨⟨rfl, rfl, rfl, rfl, rfl⟩, by decide, rfl,
    @delete_two_children_key_copy
      (RBNode.node .black 2 (some (.str "a"))
        (.node .red 1 (some (.str "x")) .nil .nil)
        (.node .red 3 (some (.str "b")) .nil .nil)) 2
      ⟨rfl, rfl, rfl, rfl, rfl⟩ (by decide)
      .black (some (.str "a"))
      (.node .red 1 (some (.str "x")) .nil .nil)
      (.node .red 3 (some (.str "b")) .nil .nil)
      rfl rfl rfl⟩

/-- C7: `boundary` never returns the key of the extreme real node: its
descent loop walks past the bottom real node (child slots of real nodes are
always truthy `Node` objects) and returns the nil terminator, for every
non-empty tree and for both selectors; the empty tree gives the empty
result.  In particular on the one-node tree {5} the result is the keyless
terminator, not key 5. -/
theorem boundary_returns_terminator :
    (∀ rt : RBNode, boundary (some rt) 0 = .ok (some .nil) ∧
      boundary (some rt) 1 = .ok (some .nil)) ∧
    boundary none 0 = .ok none ∧
    boundary (runOps [.insOp 5 (.str "v")]) 0 = .ok (some .nil) := by
  refine ⟨fun rt => ⟨?_, ?_⟩, rfl, rfl⟩
  · simp [boundary, boundWalk_nil]
  · simp [boundary, boundWalk_nil]

/-- C8: `find` on an empty tree fails with `LookupError` (the kind raised
for an absent key, mapped from the spec's NotFound) for every integer key,
and not with `TypeError` (the kind raised for a key of the wrong type,
mapped from the spec's InvalidArgument). -/
theorem find_empty_lookupError (k : Int) (s : String) :
    find none (.int k) none = .error .lookupError ∧
    find none (.str s) none = .error .typeError ∧
    PyErr.lookupError ≠ PyErr.typeError :=
  ⟨rfl, rfl, by decide⟩

/-- C9: the validator does not check invariants on RIGHT children whenever
the LEFT child is real: `badTree` has a RED node with a RED right child and
an out-of-order right grandchild (`redOk` and `bstOk` are both false), yet
`validate` on a debug tree accepts it, because every violation sits where
the `elif` chain of `__inspect` never looks. -/
theorem validate_misses_right_violations :
    redOk badTree = false ∧ bstOk badTree = false ∧
    validate true (some badTree) 7 none = .ok 7 :=
  ⟨rfl, rfl, rfl⟩

/-- C10: insert stores the payload on the new node only when the payload is
truthy (`if value: self.value = value`): inserting any falsy payload leaves
the value attribute absent, and the attribute becomes readable only after a
later `update` of that key, which stores any value unconditionally. -/
theorem insert_falsy_payload_dropped {t : Option RBNode} {k : Int} (v : PyVal)
    (hv : validT t) (hk : k ∉ keysT t) (hfalsy : truthy v = false) :
    ∃ rt', insert t (.int k) v = .ok (some rt') ∧ getAttr (some rt') k = some none ∧
      ∀ w : PyVal, ∃ rt2, update (some rt') (.int k) w = .ok (some rt2) ∧
        getAttr (some rt2) k = some (some w) := by
  cases t with
  | none =>
    refine ⟨setColor (newNode k v) .black, rfl, ?_, ?_⟩
    · simp [getAttr, getAttrGo, newNode, setColor, hfalsy]
    · intro w
      refine update_found w rfl ?_
      simp [keysT, keyList, newNode, setColor, inorder]
  | some rt =>
    obtain ⟨rt', A, B, hins, hval, hioA, hioB, hA, hB⟩ := insert_ok v hv hk
    simp only [hfalsy, Bool.false_eq_true, if_false] at hioB
    refine ⟨rt', hins, ?_, ?_⟩
    · have hmem : (k, (none : Option PyVal)) ∈ inorder rt' := by
        rw [hioB]
        simp
      simpa [getAttr] using getAttrGo_mem hval.2.2.2.2 hmem
    · intro w
      refine update_found w hval.2.2.2.2 ?_
      simp [keysT, keyList, hioB]

/-- Witness for C10 at a concrete input: the empty tree, key 3, the falsy
payload 0. -/
theorem insert_falsy_payload_dropped_witness :
    validT (none : Option RBNode) ∧ (3 : Int) ∉ keysT (none : Option RBNode) ∧
    truthy (.int 0) = false ∧
    (∃ rt', insert none (.int 3) (.int 0) = .ok (some rt') ∧
      getAttr (some rt') 3 = some none ∧
      ∀ w : PyVal, ∃ rt2, update (some rt') (.int 3) w = .ok (some rt2) ∧
        getAttr (some rt2) 3 = some (some w)) :=
  ⟨trivial, by decide, rfl,
    insert_falsy_payload_dropped (.int 0) trivial (by decide) rfl⟩

end RBT
